import Mathlib

/-!
# Verification of the hyperbolic-network embedding and routing core

This file gives a shallow embedding, in Lean 4, of the algorithmic core of the
`hyperbolic-networks` repository:

* `src/visualization/src/embedding.worker.ts` — CSV edge parsing, graph
  construction, the network-statistics estimators, the kappa/radial assignment
  and the two-phase angular optimizer (`embedNetwork`);
* `src/visualization/src/routing.ts` — hyperbolic distance and the
  bidirectional greedy router (`bidirectionalGreedyRouting`).

Modelling conventions:

* JavaScript numbers are modelled as exact values: integer counts as `ℕ`,
  exactly-representable rational arithmetic as `ℚ`, and general numeric
  expressions as `ℝ`.  Decimal literals appearing in the source (`1.75`,
  `0.2`, `2.01`, `1e-10`, …) are modelled by the corresponding exact
  rationals.
* A JavaScript expression that evaluates to `NaN` is modelled as `Option.none`
  at the interface where it is observable (the emitted `NetworkStats`
  record); the `none` conditions are derived from the source operations
  (`0/0`, reading `tail[-1]` of an empty array, and their propagation).
* JS `Map`/`Set` objects are modelled by insertion-ordered association lists
  and insertion-ordered duplicate-free lists, which reproduces both lookup
  semantics and iteration order.
* `Math.random()` is modelled by an explicit stream `rand : ℕ → ℝ` of draws
  passed to `embedNetwork`; distinct call sites consume distinct stream
  positions.
* The source's unbounded `while (true)` routing loop is modelled with an
  explicit iteration budget (`bidiLoop`); the budget is shown sufficient
  under the routing input contract (see the termination theorem for C9).
-/

/-! ## JavaScript string primitives

`String.prototype.split` and `String.prototype.trim`, modelled directly on
the character list underlying a Lean `String` so that concrete inputs
evaluate inside the kernel. -/

/-- Splits a character list at every occurrence of `c`, mirroring
JavaScript `s.split(c)`: `"".split(c) = [""]`, separators are dropped, and
empty fields are kept. -/
def splitOnChar (c : Char) (l : List Char) : List (List Char) :=
  l.foldr (fun ch acc =>
    match acc with
    | [] => [[ch]]
    | h :: t => if ch = c then [] :: h :: t else (ch :: h) :: t) [[]]

/-- Removes leading and trailing whitespace, mirroring JavaScript
`s.trim()`. -/
def trimChars (l : List Char) : List Char :=
  ((l.dropWhile Char.isWhitespace).reverse.dropWhile Char.isWhitespace).reverse

/-! ## Data model (`embedding.worker.ts`) -/

/-- An input edge: ordered pair of node identifier strings. -/
structure Edge where
  source : String
  target : String
deriving DecidableEq, Repr

/-- An embedded node as emitted by `embedNetwork`. -/
structure EmbeddedNode where
  id : String
  r : ℝ
  theta : ℝ
  kappa : ℝ
  degree : ℕ

instance : Inhabited EmbeddedNode := ⟨⟨"", 0, 0, 0, 0⟩⟩

/-- Aggregate network statistics.  A field value of `none` models a
JavaScript `NaN` in the corresponding field of the emitted record. -/
structure NetworkStats where
  N : ℕ
  kBar : Option ℚ
  gamma : Option ℝ
  beta : Option ℚ
  clustering : Option ℚ
  R : Option ℝ
  kappa0 : Option ℝ

/-! ## EdgeParser (`parseCSV`) -/

/-- Parses the CSV text: trim, split on newlines, drop the header line, and
for each remaining line split on commas, trim the first two fields and keep
the row when both are nonempty.  Mirrors `parseCSV` in
`embedding.worker.ts`. -/
def parseCSV (csv : String) : List Edge :=
  let lines := splitOnChar '\n' (trimChars csv.data)
  (lines.drop 1).filterMap (fun line =>
    let parts := (splitOnChar ',' line).map trimChars
    match parts with
    | s :: t :: _ => if s ≠ [] ∧ t ≠ [] then some ⟨⟨s⟩, ⟨t⟩⟩ else none
    | _ => none)

/-! ## GraphBuilder (`buildGraph`)

The JS `Map<string, Set<string>>` adjacency is modelled by an
insertion-ordered association list from node id to the insertion-ordered
duplicate-free neighbour list. -/

/-- Set-semantics insertion at the end, mirroring `Set.prototype.add`. -/
def insertUnique (l : List String) (x : String) : List String :=
  if x ∈ l then l else l ++ [x]

/-- Association-list model of `Map<string, Set<string>>`. -/
abbrev AdjMap := List (String × List String)

/-- Lookup mirroring `adjacency.get(k)`, with a missing key giving `[]`
(the call sites below always pair it with an existence test or treat the
missing and empty cases identically). -/
def adjLookup (m : AdjMap) (k : String) : List String :=
  match m.find? (fun p => p.1 = k) with
  | some p => p.2
  | none => []

/-- Key-membership test mirroring `adjacency.has(k)`. -/
def adjHas (m : AdjMap) (k : String) : Bool :=
  (m.find? (fun p => p.1 = k)).isSome

/-- Mirrors `if (!adjacency.has(k)) adjacency.set(k, new Set())`. -/
def adjEnsure (m : AdjMap) (k : String) : AdjMap :=
  if adjHas m k then m else m ++ [(k, [])]

/-- Mirrors `adjacency.get(k)!.add(v)`. -/
def adjAdd (m : AdjMap) (k v : String) : AdjMap :=
  m.map (fun p => if p.1 = k then (p.1, insertUnique p.2 v) else p)

/-- Processing of a single edge by `buildGraph`: ensure both endpoint
entries exist, then add each endpoint to the other's neighbour set.
Self-loop edges are processed like any other edge (the source has no
self-loop filter). -/
def buildAdjStep (m : AdjMap) (e : Edge) : AdjMap :=
  adjAdd (adjAdd (adjEnsure (adjEnsure m e.source) e.target) e.source e.target)
    e.target e.source

/-- Builds the adjacency map of `buildGraph` by folding `buildAdjStep`
over the edge list. -/
def buildAdjacency (edges : List Edge) : AdjMap :=
  edges.foldl buildAdjStep []

/-- The node list of `buildGraph`: distinct ids in first-seen order
(`Set` insertion order, sources and targets interleaved per edge). -/
def buildNodes (edges : List Edge) : List String :=
  edges.foldl (fun ns e => insertUnique (insertUnique ns e.source) e.target) []

/-! ## Stable descending sort

`[...nodes].sort((a, b) => degrees.get(b)! - degrees.get(a)!)` and
`.sort((a, b) => b - a)` are stable descending sorts (ECMAScript sorts are
stable).  They are modelled by a stable insertion sort: each element is
inserted after every earlier element whose key is at least its own. -/

/-- Stable descending insertion into a descending-sorted list. -/
def insertDescBy (key : α → ℕ) (x : α) : List α → List α
  | [] => [x]
  | y :: ys => if key y < key x then x :: y :: ys else y :: insertDescBy key x ys

/-- Stable descending insertion sort by a `ℕ`-valued key. -/
def sortDescBy (key : α → ℕ) (l : List α) : List α :=
  l.foldl (fun acc x => insertDescBy key x acc) []

/-! ## StatsEstimator -/

/-- The positive degrees sorted descending
(`degrees.filter(d => d > 0).sort((a, b) => b - a)`). -/
def gammaSorted (degrees : List ℕ) : List ℕ :=
  sortDescBy id (degrees.filter (fun d => 0 < d))

/-- The Hill tail: top `max(floor(len * 0.2), 10)` entries of the sorted
positive degrees.  For every array length, IEEE evaluation of
`Math.floor(len * 0.2)` equals `len / 5` in integer division, which is the
form used here. -/
def gammaTail (degrees : List ℕ) : List ℕ :=
  (gammaSorted degrees).take (max ((gammaSorted degrees).length / 5) 10)

/-- The smallest tail entry, `tail[tail.length - 1]`. -/
def gammaKMin (degrees : List ℕ) : ℕ := (gammaTail degrees).getLastD 0

/-- The accumulated `Σ ln(k / kMin)` over the tail. -/
noncomputable def gammaSumLog (degrees : List ℕ) : ℝ :=
  ((gammaTail degrees).map
    (fun (k : ℕ) => Real.log ((k : ℝ) / (gammaKMin degrees : ℝ)))).sum

/-- The gamma estimator of `estimateGamma`.  `none` models the `NaN`
produced when there is no positive degree (then `kMin` is `undefined` and
`1 + 0/0` is `NaN`, surviving the clamp).  When the log-ratio sum is zero,
IEEE evaluation gives `1 + n/0 = Infinity`, and
`Math.max(2.01, Math.min(Infinity, 4.0)) = 4.0`; this is the first branch.
Otherwise the estimate is clamped into `[2.01, 4.0]`. -/
noncomputable def estimateGamma (degrees : List ℕ) : Option ℝ :=
  if gammaTail degrees = [] then none
  else if gammaSumLog degrees = 0 then some 4
  else some (max 2.01 (min
    (1 + (gammaTail degrees).length / gammaSumLog degrees) 4))

/-- All neighbour pairs `(i, j)` with `i < j`, in the order of the source's
double loop over the neighbour array. -/
def pairsOf : List String → List (String × String)
  | [] => []
  | x :: xs => xs.map (fun y => (x, y)) ++ pairsOf xs

/-- Per-node triangle count and possible-pair count of `estimateClustering`:
`none` when the node has fewer than two neighbours (skipped), otherwise the
pair `(triangles, possibleTriangles)` guarded by `possibleTriangles > 0`. -/
def localClusteringCounts (adj : AdjMap) (v : String) : Option (ℕ × ℕ) :=
  let nbrs := adjLookup adj v
  if nbrs.length < 2 then none
  else
    let ps := pairsOf nbrs
    if 0 < ps.length then
      some (ps.countP (fun p => decide (p.2 ∈ adjLookup adj p.1)), ps.length)
    else none

/-- The per-node contributions collected by `estimateClustering` over the
first 1000 nodes in input order. -/
def clusteringContribs (nodes : List String) (adj : AdjMap) : List (ℕ × ℕ) :=
  (nodes.take 1000).filterMap (localClusteringCounts adj)

/-- Average local clustering coefficient (`estimateClustering`): mean of
`triangles / possibleTriangles` over the contributing nodes, `0` when no
node contributes. -/
def estimateClustering (nodes : List String) (adj : AdjMap) : ℚ :=
  let cs := clusteringContribs nodes adj
  if 0 < cs.length then
    ((cs.map (fun (tp : ℕ × ℕ) => (tp.1 : ℚ) / (tp.2 : ℚ))).sum) / (cs.length : ℚ)
  else 0

/-- `estimateBeta`: `1.0 + 1.75 * clustering` (the literal `1.75` is the
exact dyadic rational `7/4`). -/
def estimateBeta (clustering : ℚ) : ℚ := 1 + (7 / 4) * clustering

/-- `computeKappa`: `max(kappa0, degree - gamma / beta)` with
`kappa0 = kBar * (gamma - 2) / (gamma - 1)`. -/
noncomputable def computeKappa (degree : ℕ) (gamma beta kBar : ℝ) : ℝ :=
  let kappa0 := kBar * (gamma - 2) / (gamma - 1)
  let kappaEstimate := (degree : ℝ) - gamma / beta
  max kappa0 kappaEstimate

/-! ## Angle primitives -/

/-- Truncation toward zero, as used by the JavaScript `%` operator. -/
noncomputable def jsTrunc (x : ℝ) : ℤ := if 0 ≤ x then ⌊x⌋ else ⌈x⌉

/-- The JavaScript remainder `a % b` (sign follows the dividend). -/
noncomputable def jsMod (a b : ℝ) : ℝ := a - b * (jsTrunc (a / b) : ℝ)

/-- `normalizeAngle`: reduce modulo `2π`, then shift into `(-π, π]`. -/
noncomputable def normalizeAngle (theta : ℝ) : ℝ :=
  let n := jsMod theta (2 * Real.pi)
  if Real.pi < n then n - 2 * Real.pi
  else if n ≤ -Real.pi then n + 2 * Real.pi
  else n

/-- `Math.atan2(y, x)`, modelled as the complex argument of `x + y·i`
(both have range `(-π, π]` and agree on all non-signed-zero inputs). -/
noncomputable def jsAtan2 (y x : ℝ) : ℝ := Complex.arg ⟨x, y⟩

/-- `Math.acosh`, via its closed form `ln(x + √(x² - 1))`. -/
noncomputable def jsAcosh (x : ℝ) : ℝ := Real.log (x + Real.sqrt (x ^ 2 - 1))

/-- `kappaToR`: the radial coordinate `R - 2·ln(κ / κ₀)`. -/
noncomputable def kappaToR (kappa kappa0 R : ℝ) : ℝ :=
  R - 2 * Real.log (kappa / kappa0)

/-! ## AngularOptimizer: likelihood, gradient, gradient ascent

Direct translations of `computeLogLikelihoodGradientFast`,
`computeLocalLogLikelihoodFast` and `optimizeThetaGradientDescentFast`.
`Math.pow` on the nonnegative bases appearing here is `Real.rpow`;
`Math.sign` is `Real.sign`. -/

/-- Gradient of the local log-likelihood of node `targetIdx` at angle
`theta`, summed over the first `activeCount` indices. -/
noncomputable def computeLogLikelihoodGradientFast (targetIdx : ℕ) (theta : ℝ)
    (thetas : ℕ → ℝ) (kappas : ℕ → ℝ) (adjSets : ℕ → List ℕ)
    (activeCount N : ℕ) (kBar beta : ℝ) : ℝ :=
  let neighbors := adjSets targetIdx
  let kappa1 := kappas targetIdx
  let mu := beta / (2 * Real.pi * kBar * Real.sin (Real.pi / beta))
  let baseChiFactor := (N : ℝ) / (2 * Real.pi * mu * kappa1)
  ((List.range activeCount).filter (fun i => i ≠ targetIdx)).foldl
    (fun gradient i =>
      let theta2 := thetas i
      let kappa2 := kappas i
      let deltaThetaRaw := theta - theta2
      let absDeltaTheta := |deltaThetaRaw|
      let minDeltaTheta := min absDeltaTheta (2 * Real.pi - absDeltaTheta)
      let sign :=
        if absDeltaTheta < Real.pi then Real.sign deltaThetaRaw
        else -Real.sign deltaThetaRaw
      let chi := (N : ℝ) * minDeltaTheta / (2 * Real.pi * mu * kappa1 * kappa2)
      let dChiDTheta := sign * baseChiFactor / kappa2
      let chiPowBeta := Real.rpow chi beta
      let dPdChi := -beta * Real.rpow chi (beta - 1) / (chiPowBeta + 1) ^ 2
      let p := 1 / (chiPowBeta + 1)
      let pSafe := max (1 / 10 ^ 10) (min (1 - 1 / 10 ^ 10) p)
      let dLogLdP := if i ∈ neighbors then 1 / pSafe else -(1 / (1 - pSafe))
      gradient + dLogLdP * dPdChi * dChiDTheta) 0

/-- Local log-likelihood of node `targetIdx` at angle `theta`, summed over
the first `activeCount` indices. -/
noncomputable def computeLocalLogLikelihoodFast (targetIdx : ℕ) (theta : ℝ)
    (thetas : ℕ → ℝ) (kappas : ℕ → ℝ) (adjSets : ℕ → List ℕ)
    (activeCount N : ℕ) (kBar beta : ℝ) : ℝ :=
  let neighbors := adjSets targetIdx
  let kappa1 := kappas targetIdx
  let mu := beta / (2 * Real.pi * kBar * Real.sin (Real.pi / beta))
  ((List.range activeCount).filter (fun i => i ≠ targetIdx)).foldl
    (fun logL i =>
      let theta2 := thetas i
      let kappa2 := kappas i
      let diff := |theta - theta2|
      let minDeltaTheta := min diff (2 * Real.pi - diff)
      let chi := (N : ℝ) * minDeltaTheta / (2 * Real.pi * mu * kappa1 * kappa2)
      let chiPowBeta := Real.rpow chi beta
      let p := 1 / (chiPowBeta + 1)
      let pSafe := max (1 / 10 ^ 10) (min (1 - 1 / 10 ^ 10) p)
      logL + (if i ∈ neighbors then Real.log pSafe else Real.log (1 - pSafe)))
    0

/-- Mutable state of one gradient-ascent run.  `bestLogL = none` models the
`-Infinity` initialisation (any finite likelihood beats it). -/
structure OptState where
  theta : ℝ
  learningRate : ℝ
  prevGradient : ℝ
  stagnantCount : ℕ
  bestTheta : ℝ
  bestLogL : Option ℝ

/-- One-iteration-at-a-time unfolding of the ascent loop of
`optimizeThetaGradientDescentFast`; `fuel` counts the remaining
iterations (100 at the top call). -/
noncomputable def optimizeThetaGo (targetIdx : ℕ) (thetas : ℕ → ℝ)
    (kappas : ℕ → ℝ) (adjSets : ℕ → List ℕ) (activeCount N : ℕ)
    (kBar beta tolerance : ℝ) : ℕ → OptState → ℝ
  | 0, st => st.bestTheta
  | fuel + 1, st =>
    let gradient := computeLogLikelihoodGradientFast targetIdx st.theta thetas
      kappas adjSets activeCount N kBar beta
    let lrRaw :=
      if Real.sign gradient ≠ Real.sign st.prevGradient ∧ st.prevGradient ≠ 0
      then st.learningRate * (1 / 2) else st.learningRate
    let lr := max (1 / 1000) (min (1 / 5) lrRaw)
    let step := lr * gradient
    let clampedStep := max (-(1 / 10)) (min (1 / 10) step)
    let theta' := normalizeAngle (st.theta + clampedStep)
    let currentLogL := computeLocalLogLikelihoodFast targetIdx theta' thetas
      kappas adjSets activeCount N kBar beta
    let best :=
      match st.bestLogL with
      | none => (theta', some currentLogL)
      | some b => if b < currentLogL then (theta', some currentLogL)
        else (st.bestTheta, some b)
    let stagnant' := if |clampedStep| < tolerance * (1 / 10)
      then st.stagnantCount + 1 else 0
    if |clampedStep| < tolerance * (1 / 10) ∧ 5 < stagnant' then best.1
    else if |gradient| < tolerance then best.1
    else optimizeThetaGo targetIdx thetas kappas adjSets activeCount N kBar
      beta tolerance fuel
      { theta := theta', learningRate := lr, prevGradient := gradient,
        stagnantCount := stagnant', bestTheta := best.1, bestLogL := best.2 }

/-- `optimizeThetaGradientDescentFast` with its default `maxIterations = 100`
and `tolerance = 2e-4`: runs the ascent from the node's current angle and
returns the best angle seen. -/
noncomputable def optimizeThetaGradientDescentFast (targetIdx : ℕ)
    (thetas : ℕ → ℝ) (kappas : ℕ → ℝ) (adjSets : ℕ → List ℕ)
    (activeCount N : ℕ) (kBar beta : ℝ) : ℝ :=
  optimizeThetaGo targetIdx thetas kappas adjSets activeCount N kBar beta
    (2 / 10 ^ 4) 100
    { theta := thetas targetIdx, learningRate := 1 / 10, prevGradient := 0,
      stagnantCount := 0, bestTheta := thetas targetIdx, bestLogL := none }

/-- `computeThetaCircularMeanFast`: a node with no neighbours at all gets a
fresh uniform draw (`randDraw` models the `Math.random()` value consumed at
this call); otherwise the angle is `atan2` of the accumulated sine and
cosine sums over all its neighbours' current angles, normalized. -/
noncomputable def computeThetaCircularMeanFast (targetIdx : ℕ)
    (thetas : ℕ → ℝ) (adjSets : ℕ → List ℕ) (randDraw : ℝ) : ℝ :=
  let neighbors := adjSets targetIdx
  if neighbors = [] then
    normalizeAngle (randDraw * 2 * Real.pi - Real.pi)
  else
    let sums := neighbors.foldl
      (fun acc j => (acc.1 + Real.sin (thetas j), acc.2 + Real.cos (thetas j)))
      (0, 0)
    normalizeAngle (jsAtan2 sums.1 sums.2)

/-! ## EmbeddingDriver (`embedNetwork`)

The driver is split into named stages so that theorems can speak about each
intermediate value.  All stages are functions of the CSV text (and, where
randomness enters, of the draw stream). -/

/-- Parsed edges of the input. -/
def embedEdges (csv : String) : List Edge := parseCSV csv

/-- Node ids in first-seen order. -/
def embedNodeIds (csv : String) : List String := buildNodes (embedEdges csv)

/-- The string adjacency map. -/
def embedAdj (csv : String) : AdjMap := buildAdjacency (embedEdges csv)

/-- `N`, the node count. -/
def embedN (csv : String) : ℕ := (embedNodeIds csv).length

/-- Degree of a node: the size of its neighbour set (0 for a missing
entry, mirroring `adjacency.get(node)?.size || 0`). -/
def embedDegreeOf (csv : String) (v : String) : ℕ :=
  (adjLookup (embedAdj csv) v).length

/-- `Array.from(degrees.values())`: the degrees in node order. -/
def embedDegreeValues (csv : String) : List ℕ :=
  (embedNodeIds csv).map (embedDegreeOf csv)

/-- Mean degree `kBar` (for `N = 0` the JS value is `0/0 = NaN`; this raw
value is then only used where `N > 0`, and the emitted stats field is
`none` in that case). -/
def embedKBar (csv : String) : ℚ :=
  ((embedDegreeValues csv).sum : ℚ) / (embedN csv : ℚ)

/-- The gamma estimate (`none` models `NaN`). -/
noncomputable def embedGammaOpt (csv : String) : Option ℝ :=
  estimateGamma (embedDegreeValues csv)

/-- The gamma value used by the later numeric stages; the default is never
reached when the graph has a node (every node of `buildGraph` has positive
degree). -/
noncomputable def embedGamma (csv : String) : ℝ := (embedGammaOpt csv).getD 0

/-- Average clustering. -/
def embedClustering (csv : String) : ℚ :=
  estimateClustering (embedNodeIds csv) (embedAdj csv)

/-- Inverse-temperature `beta`. -/
def embedBeta (csv : String) : ℚ := estimateBeta (embedClustering csv)

/-- `kappa0 = kBar * (gamma - 2) / (gamma - 1)`. -/
noncomputable def embedKappa0 (csv : String) : ℝ :=
  (embedKBar csv : ℝ) * (embedGamma csv - 2) / (embedGamma csv - 1)

/-- `mu = beta / (2π · kBar · sin(π / beta))`. -/
noncomputable def embedMu (csv : String) : ℝ :=
  (embedBeta csv : ℝ) /
    (2 * Real.pi * (embedKBar csv : ℝ) * Real.sin (Real.pi / (embedBeta csv : ℝ)))

/-- `R = 2 · ln(N / (π · mu · kappa0²))`. -/
noncomputable def embedR (csv : String) : ℝ :=
  2 * Real.log ((embedN csv : ℝ) /
    (Real.pi * embedMu csv * embedKappa0 csv * embedKappa0 csv))

/-- Nodes sorted by descending degree (stable, hence ties keep first-seen
order). -/
def embedSorted (csv : String) : List String :=
  sortDescBy (embedDegreeOf csv) (embedNodeIds csv)

/-- The hidden-degree parameter of a node. -/
noncomputable def embedKappaAt (csv : String) (v : String) : ℝ :=
  computeKappa (embedDegreeOf csv v) (embedGamma csv) (embedBeta csv : ℝ)
    (embedKBar csv : ℝ)

/-- `kappas` indexed by sorted position. -/
noncomputable def embedKappas (csv : String) : ℕ → ℝ := fun i =>
  embedKappaAt csv ((embedSorted csv).getD i "")

/-- The integer adjacency `adjSets`: neighbour ids of the `i`-th sorted
node, mapped through `nodeToIndex` (which contains every node). -/
def embedIndexAdj (csv : String) : ℕ → List ℕ := fun i =>
  (adjLookup (embedAdj csv) ((embedSorted csv).getD i "")).map
    (fun s => (embedSorted csv).indexOf s)

/-- `phase1Count = Math.min(500, N)`. -/
def embedPhase1Count (csv : String) : ℕ := min 500 (embedN csv)

/-- Initial angles: the first `phase1Count` anchors get the even spread
`-π + 2π·i/phase1Count`; every later index gets the uniform draw
`rand i * 2π - π`. -/
noncomputable def embedThetaInit (csv : String) (rand : ℕ → ℝ) : ℕ → ℝ :=
  fun i =>
    if i < embedPhase1Count csv then
      -Real.pi + 2 * Real.pi * (i : ℝ) / (embedPhase1Count csv : ℝ)
    else rand i * 2 * Real.pi - Real.pi

/-- Phase 1: six rounds, each sweeping the anchors in order and replacing
each anchor's angle in place by the result of its gradient ascent. -/
noncomputable def embedPhase1 (csv : String) (rand : ℕ → ℝ) : ℕ → ℝ :=
  (List.range 6).foldl (fun th _ =>
    (List.range (embedPhase1Count csv)).foldl (fun th i =>
      Function.update th i
        (optimizeThetaGradientDescentFast i th (embedKappas csv)
          (embedIndexAdj csv) (embedPhase1Count csv) (embedN csv)
          (embedKBar csv : ℝ) (embedBeta csv : ℝ))) th)
    (embedThetaInit csv rand)

/-- Phase 2: the remaining nodes in sorted order, each angle replaced in
place by the circular-mean assignment.  The source processes them in
batches of up to 100, writing each angle immediately; since both the
batches and the nodes within a batch are sequential, this equals the
single sequential pass modelled here.  The draw stream offset `N`
separates these `Math.random()` calls from the initialisation draws. -/
noncomputable def embedThetas (csv : String) (rand : ℕ → ℝ) : ℕ → ℝ :=
  (List.range' (embedPhase1Count csv) (embedN csv - embedPhase1Count csv)).foldl
    (fun th i =>
      Function.update th i
        (computeThetaCircularMeanFast i th (embedIndexAdj csv)
          (rand (embedN csv + i))))
    (embedPhase1 csv rand)

/-- The result record of `embedNetwork`. -/
structure EmbedResult where
  nodes : List EmbeddedNode
  stats : NetworkStats
  stringAdjacency : AdjMap

/-- The embedding driver `embedNetwork`.  `rand` is the `Math.random()`
draw stream.  The emitted stats fields are `none` exactly where the IEEE
evaluation yields `NaN`: `kBar` for `N = 0` (`0/0`), `gamma` when no
positive degree exists, and `R`, `kappa0` by propagation (`clustering` and
`beta` are always genuine numbers: the estimator returns `0` on an empty
sample). -/
noncomputable def embedNetwork (csv : String) (rand : ℕ → ℝ) : EmbedResult :=
  let nodes := (embedSorted csv).mapIdx (fun index id =>
    { id := id
      r := kappaToR (embedKappaAt csv id) (embedKappa0 csv) (embedR csv)
      theta := embedThetas csv rand index
      kappa := embedKappaAt csv id
      degree := embedDegreeOf csv id })
  { nodes := nodes
    stats :=
      { N := embedN csv
        kBar := if embedN csv = 0 then none else some (embedKBar csv)
        gamma := embedGammaOpt csv
        beta := some (embedBeta csv)
        clustering := some (embedClustering csv)
        R := if embedN csv = 0 ∨ embedGammaOpt csv = none then none
          else some (embedR csv)
        kappa0 := if embedN csv = 0 ∨ embedGammaOpt csv = none then none
          else some (embedKappa0 csv) }
    stringAdjacency := embedAdj csv }

/-! ## BidirectionalRouter (`routing.ts`)

The router consumes embedded nodes, the string adjacency and an
id-to-node index (`Map<string, EmbeddedNode>`, modelled as an association
list).  Distances and stretches are `EReal` so the failure record's
`Infinity` is representable; on success they are coercions of real sums. -/

/-- The routing result record. -/
structure RoutingResult where
  success : Bool
  path : List EmbeddedNode
  forwardPath : List EmbeddedNode
  backwardPath : List EmbeddedNode
  meetingNode : Option EmbeddedNode
  distance : EReal
  stretch : EReal
  pathLength : ℕ

/-- Association-list model of the id-to-node index. -/
abbrev NodeMap := List (String × EmbeddedNode)

/-- Lookup mirroring `nodeMap.get(id)`. -/
def nmLookup (m : NodeMap) (k : String) : Option EmbeddedNode :=
  (m.find? (fun p => p.1 = k)).map (fun p => p.2)

/-- The keys of the index. -/
def nmKeys (m : NodeMap) : List String := m.map (fun p => p.1)

/-- `adjacency.get(id)` where the `undefined` case must stay observable
(the router skips the hop attempt entirely on a missing entry). -/
def adjFind? (m : AdjMap) (k : String) : Option (List String) :=
  (m.find? (fun p => p.1 = k)).map (fun p => p.2)

/-- `hyperbolicDistance`: the hyperbolic law of cosines with the argument
clamped to at least 1 before `acosh`. -/
noncomputable def hyperbolicDistance (node1 node2 : EmbeddedNode) : ℝ :=
  let deltaTheta := |node1.theta - node2.theta|
  let minDeltaTheta := min deltaTheta (2 * Real.pi - deltaTheta)
  let coshTerm := Real.cosh node1.r * Real.cosh node2.r
  let sinhTerm := Real.sinh node1.r * Real.sinh node2.r * Real.cos minDeltaTheta
  jsAcosh (max 1 (coshTerm - sinhTerm))

/-- `findClosestNeighbour`: scans the candidate list in order, skipping
visited nodes and the immediate predecessor, and keeps the strictly
closest node to `targetNode` seen so far (`Infinity` initial best is
modelled by the `none` accumulator). -/
noncomputable def findClosestNeighbour (_currentNode targetNode : EmbeddedNode)
    (neighbours : List EmbeddedNode) (visited : List String)
    (previousNode : Option EmbeddedNode) : Option EmbeddedNode :=
  (neighbours.foldl (fun best neighbour =>
    if neighbour.id ∈ visited ∨
        neighbour.id ∈ (previousNode.map (fun p => p.id)).toList then best
    else
      let dist := hyperbolicDistance neighbour targetNode
      match best with
      | none => some (neighbour, dist)
      | some (b, bestDistance) =>
        if dist < bestDistance then some (neighbour, dist)
        else some (b, bestDistance)) none).map (fun p => p.1)

/-- Sum of hyperbolic distances along consecutive path nodes. -/
noncomputable def pathDist : List EmbeddedNode → ℝ
  | a :: b :: rest => hyperbolicDistance a b + pathDist (b :: rest)
  | _ => 0

/-- Loop state of `bidirectionalGreedyRouting`: both partial walks, both
visited id sets, both cursors and both immediate predecessors. -/
structure BidiState where
  forwardPath : List EmbeddedNode
  backwardPath : List EmbeddedNode
  forwardVisited : List String
  backwardVisited : List String
  forwardCurrent : EmbeddedNode
  backwardCurrent : EmbeddedNode
  forwardPrevious : Option EmbeddedNode
  backwardPrevious : Option EmbeddedNode

/-- The loop state right after initialisation. -/
def initState (startNode endNode : EmbeddedNode) : BidiState :=
  { forwardPath := [startNode], backwardPath := [endNode]
    forwardVisited := [startNode.id], backwardVisited := [endNode.id]
    forwardCurrent := startNode, backwardCurrent := endNode
    forwardPrevious := none, backwardPrevious := none }

/-- The forward half of one loop iteration.  `Sum.inl` is an early return
out of the whole routine; `Sum.inr (st, moved)` continues with the updated
state and the `forwardMoved` flag. -/
noncomputable def forwardAttempt (startNode endNode : EmbeddedNode)
    (adjacency : AdjMap) (nodeMap : NodeMap) (st : BidiState) :
    RoutingResult ⊕ (BidiState × Bool) :=
  match adjFind? adjacency st.forwardCurrent.id with
  | none => Sum.inr (st, false)
  | some neighbourIds =>
    match findClosestNeighbour st.forwardCurrent endNode
      (neighbourIds.filterMap (nmLookup nodeMap))
      st.forwardVisited st.forwardPrevious with
    | none => Sum.inr (st, false)
    | some forwardNext =>
      if forwardNext.id ∈ st.backwardVisited then
        Sum.inl
          { success := true
            path := (st.forwardPath ++ [forwardNext]) ++
              (st.backwardPath.take (st.backwardPath.findIdx
                (fun node => node.id = forwardNext.id))).reverse
            forwardPath := st.forwardPath ++ [forwardNext]
            backwardPath := st.backwardPath.take ((st.backwardPath.findIdx
              (fun node => node.id = forwardNext.id)) + 1)
            meetingNode := some forwardNext
            distance := ((pathDist ((st.forwardPath ++ [forwardNext]) ++
              (st.backwardPath.take (st.backwardPath.findIdx
                (fun node => node.id = forwardNext.id))).reverse) : ℝ) : EReal)
            stretch := ((pathDist ((st.forwardPath ++ [forwardNext]) ++
              (st.backwardPath.take (st.backwardPath.findIdx
                (fun node => node.id = forwardNext.id))).reverse) /
              hyperbolicDistance startNode endNode : ℝ) : EReal)
            pathLength := ((st.forwardPath ++ [forwardNext]) ++
              (st.backwardPath.take (st.backwardPath.findIdx
                (fun node => node.id = forwardNext.id))).reverse).length - 1 }
      else
        if forwardNext.id = endNode.id then
          Sum.inl
            { success := true
              path := st.forwardPath ++ [forwardNext]
              forwardPath := st.forwardPath ++ [forwardNext]
              backwardPath := []
              meetingNode := some endNode
              distance := ((pathDist (st.forwardPath ++ [forwardNext]) : ℝ) :
                EReal)
              stretch := ((pathDist (st.forwardPath ++ [forwardNext]) /
                hyperbolicDistance startNode endNode : ℝ) : EReal)
              pathLength := (st.forwardPath ++ [forwardNext]).length - 1 }
        else Sum.inr
          ({ st with
            forwardPath := st.forwardPath ++ [forwardNext]
            forwardVisited := st.forwardVisited ++ [forwardNext.id]
            forwardPrevious := some st.forwardCurrent
            forwardCurrent := forwardNext }, true)

/-- The backward half of one loop iteration (symmetric to
`forwardAttempt`, walking toward `startNode`). -/
noncomputable def backwardAttempt (startNode endNode : EmbeddedNode)
    (adjacency : AdjMap) (nodeMap : NodeMap) (st : BidiState) :
    RoutingResult ⊕ (BidiState × Bool) :=
  match adjFind? adjacency st.backwardCurrent.id with
  | none => Sum.inr (st, false)
  | some neighbourIds =>
    match findClosestNeighbour st.backwardCurrent startNode
      (neighbourIds.filterMap (nmLookup nodeMap))
      st.backwardVisited st.backwardPrevious with
    | none => Sum.inr (st, false)
    | some backwardNext =>
      if backwardNext.id ∈ st.forwardVisited then
        Sum.inl
          { success := true
            path := st.forwardPath.take ((st.forwardPath.findIdx
                (fun node => node.id = backwardNext.id)) + 1) ++
              (st.backwardPath ++ [backwardNext]).dropLast.reverse
            forwardPath := st.forwardPath.take ((st.forwardPath.findIdx
              (fun node => node.id = backwardNext.id)) + 1)
            backwardPath := st.backwardPath ++ [backwardNext]
            meetingNode := some backwardNext
            distance := ((pathDist (st.forwardPath.take ((st.forwardPath.findIdx
                (fun node => node.id = backwardNext.id)) + 1) ++
              (st.backwardPath ++ [backwardNext]).dropLast.reverse) : ℝ) :
              EReal)
            stretch := ((pathDist (st.forwardPath.take ((st.forwardPath.findIdx
                (fun node => node.id = backwardNext.id)) + 1) ++
              (st.backwardPath ++ [backwardNext]).dropLast.reverse) /
              hyperbolicDistance startNode endNode : ℝ) : EReal)
            pathLength := (st.forwardPath.take ((st.forwardPath.findIdx
                (fun node => node.id = backwardNext.id)) + 1) ++
              (st.backwardPath ++ [backwardNext]).dropLast.reverse).length - 1 }
      else
        if backwardNext.id = startNode.id then
          Sum.inl
            { success := true
              path := st.forwardPath ++
                ((st.backwardPath ++ [backwardNext]).drop 1).reverse
              forwardPath := st.forwardPath
              backwardPath := st.backwardPath ++ [backwardNext]
              meetingNode := some startNode
              distance := ((pathDist (st.forwardPath ++
                ((st.backwardPath ++ [backwardNext]).drop 1).reverse) : ℝ) :
                EReal)
              stretch := ((pathDist (st.forwardPath ++
                ((st.backwardPath ++ [backwardNext]).drop 1).reverse) /
                hyperbolicDistance startNode endNode : ℝ) : EReal)
              pathLength := (st.forwardPath ++
                ((st.backwardPath ++ [backwardNext]).drop 1).reverse).length
                - 1 }
        else Sum.inr
          ({ st with
            backwardPath := st.backwardPath ++ [backwardNext]
            backwardVisited := st.backwardVisited ++ [backwardNext.id]
            backwardPrevious := some st.backwardCurrent
            backwardCurrent := backwardNext }, true)

/-- One full iteration of the `while (true)` loop: a forward hop attempt,
then a backward hop attempt, then the both-sides-stalled exit. -/
noncomputable def stepIter (startNode endNode : EmbeddedNode)
    (adjacency : AdjMap) (nodeMap : NodeMap) (st : BidiState) :
    RoutingResult ⊕ BidiState :=
  match forwardAttempt startNode endNode adjacency nodeMap st with
  | Sum.inl r => Sum.inl r
  | Sum.inr (st1, forwardMoved) =>
    match backwardAttempt startNode endNode adjacency nodeMap st1 with
    | Sum.inl r => Sum.inl r
    | Sum.inr (st2, backwardMoved) =>
      if forwardMoved ∨ backwardMoved then Sum.inr st2
      else Sum.inl
        { success := false, path := [], forwardPath := st2.forwardPath
          backwardPath := st2.backwardPath, meetingNode := none
          distance := ⊤, stretch := ⊤, pathLength := 0 }

/-- The loop with an explicit iteration budget; `none` means the budget was
exhausted (shown unreachable, with room to spare, by the termination
theorem for C9 under the routing input contract). -/
noncomputable def bidiLoop (startNode endNode : EmbeddedNode)
    (adjacency : AdjMap) (nodeMap : NodeMap) :
    ℕ → BidiState → Option RoutingResult
  | 0, _ => none
  | fuel + 1, st =>
    match stepIter startNode endNode adjacency nodeMap st with
    | Sum.inl r => some r
    | Sum.inr st' => bidiLoop startNode endNode adjacency nodeMap fuel st'

/-- `bidirectionalGreedyRouting`: the identical-endpoints short-circuit,
then the bidirectional loop. -/
noncomputable def bidirectionalGreedyRouting (startNode endNode : EmbeddedNode)
    (adjacency : AdjMap) (nodeMap : NodeMap) : Option RoutingResult :=
  if startNode.id = endNode.id then
    some
      { success := true, path := [startNode], forwardPath := [startNode]
        backwardPath := [], meetingNode := some startNode
        distance := ((0 : ℝ) : EReal), stretch := ((1 : ℝ) : EReal)
        pathLength := 0 }
  else
    bidiLoop startNode endNode adjacency nodeMap (nmKeys nodeMap).length
      (initState startNode endNode)

/-- Ids of a node list. -/
def idsOf (l : List EmbeddedNode) : List String := l.map (fun n => n.id)

/-! ## Specification-side definitions

Definitions written from the spec's words, used to compare the code
against the claimed behaviour (never used by the code model itself). -/

/-- Claimed phase-2 rule (C4, as stated): the circular mean over the
already-placed neighbours only — the neighbours with index below the
node's own position — with a fresh uniform draw when no neighbour is
already placed. -/
noncomputable def specPhase2Angle (targetIdx : ℕ) (thetas : ℕ → ℝ)
    (adjSets : ℕ → List ℕ) (randDraw : ℝ) : ℝ :=
  let placed := (adjSets targetIdx).filter (fun j => j < targetIdx)
  if placed = [] then normalizeAngle (randDraw * 2 * Real.pi - Real.pi)
  else
    normalizeAngle (jsAtan2
      ((placed.map (fun j => Real.sin (thetas j))).sum)
      ((placed.map (fun j => Real.cos (thetas j))).sum))

/-- Amended phase-2 rule (C4, amended): the circular mean over all
neighbours' current angles — final angles for already-placed neighbours,
random initial angles for not-yet-placed ones — with a fresh uniform
draw only when the node has no neighbour at all. -/
noncomputable def phase2AngleAllNeighbours (targetIdx : ℕ) (thetas : ℕ → ℝ)
    (adjSets : ℕ → List ℕ) (randDraw : ℝ) : ℝ :=
  let nbrs := adjSets targetIdx
  if nbrs = [] then normalizeAngle (randDraw * 2 * Real.pi - Real.pi)
  else
    normalizeAngle (jsAtan2
      ((nbrs.map (fun j => Real.sin (thetas j))).sum)
      ((nbrs.map (fun j => Real.cos (thetas j))).sum))

/-- Outcome type of the embedding as the specification words it (C2):
either a `DegenerateStats` signal that aborts the embedding with no node
list, or a full result. -/
inductive SpecEmbedOutcome where
  | degenerateStats : SpecEmbedOutcome
  | ok : EmbedResult → SpecEmbedOutcome

/-- The embedding pipeline as the specification describes it (C2, as
stated): require the estimated `beta > 1` and `kappa0 > 0`; if either
check fails, signal `DegenerateStats` — the embedding aborts and emits
nothing; otherwise emit the implementation's result. -/
noncomputable def specCheckedEmbedNetwork (csv : String) (rand : ℕ → ℝ) :
    SpecEmbedOutcome :=
  if embedBeta csv ≤ 1 ∨ embedKappa0 csv ≤ 0 then
    SpecEmbedOutcome.degenerateStats
  else SpecEmbedOutcome.ok (embedNetwork csv rand)

/-! ## Concrete instances used in counterexamples and witnesses -/

/-- Hub ids of the 22-node counterexample graph for C1. -/
def hubIds : List String := ["A", "B", "C", "D", "E", "F", "G", "H", "I", "J"]

/-- Member ids of the 22-node counterexample graph for C1. -/
def memberIds : List String :=
  ["K", "L", "M", "N", "O", "P", "Q", "R", "S", "T", "U", "V"]

/-- The C1 counterexample input: the complete bipartite graph between the
ten hubs and the twelve members, plus the single member-member edge
`K—L` (which makes the clustering small but positive, so that all
statistics are finite). -/
def csvC1 : String :=
  "s,t\n" ++ String.intercalate "\n"
    ((hubIds.flatMap (fun h => memberIds.map (fun m => h ++ "," ++ m))) ++
      ["K,L"])

/-- First-seen node order of the C1 counterexample graph (checked against
the pipeline in `hubGraph_nodes`). -/
def nodeIdsC1 : List String :=
  ["A", "K", "L", "M", "N", "O", "P", "Q", "R", "S", "T", "U", "V", "B",
    "C", "D", "E", "F", "G", "H", "I", "J"]

/-- Adjacency of the C1 counterexample graph (checked against the pipeline
in `hubGraph_adj`). -/
def adjC1 : AdjMap :=
  [("A", ["K", "L", "M", "N", "O", "P", "Q", "R", "S", "T", "U", "V"]),
   ("K", ["A", "B", "C", "D", "E", "F", "G", "H", "I", "J", "L"]),
   ("L", ["A", "B", "C", "D", "E", "F", "G", "H", "I", "J", "K"]),
   ("M", ["A", "B", "C", "D", "E", "F", "G", "H", "I", "J"]),
   ("N", ["A", "B", "C", "D", "E", "F", "G", "H", "I", "J"]),
   ("O", ["A", "B", "C", "D", "E", "F", "G", "H", "I", "J"]),
   ("P", ["A", "B", "C", "D", "E", "F", "G", "H", "I", "J"]),
   ("Q", ["A", "B", "C", "D", "E", "F", "G", "H", "I", "J"]),
   ("R", ["A", "B", "C", "D", "E", "F", "G", "H", "I", "J"]),
   ("S", ["A", "B", "C", "D", "E", "F", "G", "H", "I", "J"]),
   ("T", ["A", "B", "C", "D", "E", "F", "G", "H", "I", "J"]),
   ("U", ["A", "B", "C", "D", "E", "F", "G", "H", "I", "J"]),
   ("V", ["A", "B", "C", "D", "E", "F", "G", "H", "I", "J"]),
   ("B", ["K", "L", "M", "N", "O", "P", "Q", "R", "S", "T", "U", "V"]),
   ("C", ["K", "L", "M", "N", "O", "P", "Q", "R", "S", "T", "U", "V"]),
   ("D", ["K", "L", "M", "N", "O", "P", "Q", "R", "S", "T", "U", "V"]),
   ("E", ["K", "L", "M", "N", "O", "P", "Q", "R", "S", "T", "U", "V"]),
   ("F", ["K", "L", "M", "N", "O", "P", "Q", "R", "S", "T", "U", "V"]),
   ("G", ["K", "L", "M", "N", "O", "P", "Q", "R", "S", "T", "U", "V"]),
   ("H", ["K", "L", "M", "N", "O", "P", "Q", "R", "S", "T", "U", "V"]),
   ("I", ["K", "L", "M", "N", "O", "P", "Q", "R", "S", "T", "U", "V"]),
   ("J", ["K", "L", "M", "N", "O", "P", "Q", "R", "S", "T", "U", "V"])]

/-- Routing counterexample node `A` (all coordinates zero, so every
hyperbolic distance is zero and ties resolve by neighbour order). -/
def rNodeA : EmbeddedNode := ⟨"A", 0, 0, 0, 2⟩

/-- Routing counterexample node `B`. -/
def rNodeB : EmbeddedNode := ⟨"B", 0, 0, 0, 2⟩

/-- Routing counterexample node `D`. -/
def rNodeD : EmbeddedNode := ⟨"D", 0, 0, 0, 2⟩

/-- Routing counterexample adjacency: the triangle `A—B—D`. -/
def rAdjCE : AdjMap := [("A", ["B", "D"]), ("B", ["A", "D"]), ("D", ["A", "B"])]

/-- Routing counterexample node index. -/
def rNodeMapCE : NodeMap := [("A", rNodeA), ("B", rNodeB), ("D", rNodeD)]

/-! ## Router loop invariant and measure -/

/-- Invariant of the bidirectional loop state: the visited sets are
exactly the walked ids, both walks are duplicate-free and disjoint, and
each walk starts at its own endpoint. -/
structure BidiInv (startNode endNode : EmbeddedNode) (st : BidiState) : Prop where
  fV_eq : ∀ s, s ∈ st.forwardVisited ↔ s ∈ idsOf st.forwardPath
  bV_eq : ∀ s, s ∈ st.backwardVisited ↔ s ∈ idsOf st.backwardPath
  fP_nodup : (idsOf st.forwardPath).Nodup
  bP_nodup : (idsOf st.backwardPath).Nodup
  disj : ∀ s, s ∈ idsOf st.forwardPath → s ∉ idsOf st.backwardPath
  fP_head : st.forwardPath.head? = some startNode
  bP_head : st.backwardPath.head? = some endNode

/-- Whether the forward walk can currently move (its hop attempt would
find a candidate). -/
noncomputable def forwardCanMove (endNode : EmbeddedNode) (adjacency : AdjMap)
    (nodeMap : NodeMap) (st : BidiState) : Bool :=
  match adjFind? adjacency st.forwardCurrent.id with
  | none => false
  | some neighbourIds =>
    (findClosestNeighbour st.forwardCurrent endNode
      (neighbourIds.filterMap (nmLookup nodeMap)) st.forwardVisited
      st.forwardPrevious).isSome

/-- Whether the backward walk can currently move. -/
noncomputable def backwardCanMove (startNode : EmbeddedNode) (adjacency : AdjMap)
    (nodeMap : NodeMap) (st : BidiState) : Bool :=
  match adjFind? adjacency st.backwardCurrent.id with
  | none => false
  | some neighbourIds =>
    (findClosestNeighbour st.backwardCurrent startNode
      (neighbourIds.filterMap (nmLookup nodeMap)) st.backwardVisited
      st.backwardPrevious).isSome

/-- Termination measure of the loop: for each side that can still move,
the number of unvisited nodes it could still take, maximised over the two
sides.  Each continuing iteration strictly decreases it. -/
noncomputable def bidiMeasure (startNode endNode : EmbeddedNode)
    (adjacency : AdjMap) (nodeMap : NodeMap) (st : BidiState) : ℕ :=
  max
    (if forwardCanMove endNode adjacency nodeMap st
      then (nmKeys nodeMap).length - st.forwardVisited.length else 0)
    (if backwardCanMove startNode adjacency nodeMap st
      then (nmKeys nodeMap).length - st.backwardVisited.length else 0)

/-- The loop state after the first forward hop of the concrete routing
run on the triangle (`A` moved to `B`). -/
def st1CE : BidiState :=
  { forwardPath := [rNodeA, rNodeB], backwardPath := [rNodeD]
    forwardVisited := ["A", "B"], backwardVisited := ["D"]
    forwardCurrent := rNodeB, backwardCurrent := rNodeD
    forwardPrevious := some rNodeA, backwardPrevious := none }

/-- The result record of the concrete routing run on the triangle: the
backward walk meets the forward walk at the start node itself. -/
noncomputable def rResultCE : RoutingResult :=
  { success := true, path := [rNodeA, rNodeD], forwardPath := [rNodeA]
    backwardPath := [rNodeD, rNodeA], meetingNode := some rNodeA
    distance := ((0 : ℝ) : EReal), stretch := ((0 : ℝ) : EReal)
    pathLength := 1 }

/-- Counting invariant for the termination argument: the two visited id
lists are jointly duplicate-free and every visited id is an index key. -/
structure BidiCnt (nodeMap : NodeMap) (st : BidiState) : Prop where
  nodup : (st.forwardVisited ++ st.backwardVisited).Nodup
  keys : ∀ x ∈ st.forwardVisited ++ st.backwardVisited, x ∈ nmKeys nodeMap


/-! ## Association-list and set-list lemmas -/

/-- Membership in a set-insertion. -/
theorem mem_insertUnique {l : List String} {x y : String} :
    y ∈ insertUnique l x ↔ y ∈ l ∨ y = x := by
  unfold insertUnique
  split
  · rename_i h
    constructor
    · exact fun hy => Or.inl hy
    · rintro (hy | rfl) <;> [exact hy; exact h]
  · simp

/-- Inserting into a set-list never yields the empty list. -/
theorem insertUnique_ne_nil (l : List String) (x : String) :
    insertUnique l x ≠ [] := by
  unfold insertUnique
  split
  · rename_i h
    rintro rfl
    exact absurd h (List.not_mem_nil x)
  · simp

/-- Unfolding lemma: lookup on a cons cell. -/
theorem adjLookup_cons (p : String × List String) (t : AdjMap) (v : String) :
    adjLookup (p :: t) v = if p.1 = v then p.2 else adjLookup t v := by
  unfold adjLookup
  by_cases h : p.1 = v <;> simp [List.find?, h]

/-- Unfolding lemma: key test on a cons cell. -/
theorem adjHas_cons (p : String × List String) (t : AdjMap) (v : String) :
    adjHas (p :: t) v = if p.1 = v then true else adjHas t v := by
  unfold adjHas
  by_cases h : p.1 = v <;> simp [List.find?, h]

/-- Unfolding lemma: neighbour addition on a cons cell. -/
theorem adjAdd_cons (p : String × List String) (t : AdjMap) (k x : String) :
    adjAdd (p :: t) k x =
      (if p.1 = k then (p.1, insertUnique p.2 x) else p) :: adjAdd t k x := rfl

/-- Ensuring an entry does not change any lookup (a fresh entry is empty,
which is also what a missing key reads as). -/
theorem adjLookup_adjEnsure (m : AdjMap) (k v : String) :
    adjLookup (adjEnsure m k) v = adjLookup m v := by
  unfold adjEnsure
  by_cases h : adjHas m k = true
  · rw [if_pos h]
  · rw [if_neg h]
    unfold adjLookup
    rw [List.find?_append]
    cases hf : m.find? (fun p => decide (p.1 = v)) with
    | some p => simp [hf]
    | none =>
      by_cases hkv : k = v <;> simp [hf, List.find?, hkv]

/-- After ensuring, the key is present. -/
theorem adjHas_adjEnsure_self (m : AdjMap) (k : String) :
    adjHas (adjEnsure m k) k = true := by
  unfold adjEnsure
  by_cases h : adjHas m k = true
  · rwa [if_pos h]
  · rw [if_neg h]
    unfold adjHas at h ⊢
    rw [List.find?_append]
    cases hf : m.find? (fun p => decide (p.1 = k)) with
    | some p => simp [hf] at h
    | none => simp [hf, List.find?]

/-- Ensuring preserves presence of any key. -/
theorem adjHas_adjEnsure_of (m : AdjMap) (k v : String)
    (h : adjHas m v = true) : adjHas (adjEnsure m k) v = true := by
  unfold adjEnsure
  by_cases hk : adjHas m k = true
  · rwa [if_pos hk]
  · rw [if_neg hk]
    unfold adjHas at h ⊢
    rw [List.find?_append]
    cases hf : m.find? (fun p => decide (p.1 = v)) with
    | some p => simp [hf]
    | none => simp [hf] at h

/-- Adding a neighbour preserves key presence. -/
theorem adjHas_adjAdd (m : AdjMap) (k x v : String) :
    adjHas (adjAdd m k x) v = adjHas m v := by
  induction m with
  | nil => rfl
  | cons p t ih =>
    rw [adjAdd_cons, adjHas_cons, adjHas_cons]
    by_cases hpk : p.1 = k
    · rw [if_pos hpk]
      by_cases hpv : p.1 = v <;> simp [hpk, hpv, ih]
    · rw [if_neg hpk]
      by_cases hpv : p.1 = v <;> simp [hpv, ih]

/-- Lookup after a neighbour addition: the addressed present key gains the
neighbour, everything else is unchanged. -/
theorem adjLookup_adjAdd (m : AdjMap) (k x v : String) :
    adjLookup (adjAdd m k x) v =
      if v = k ∧ adjHas m k = true then insertUnique (adjLookup m v) x
      else adjLookup m v := by
  induction m with
  | nil => simp [adjAdd, adjLookup, adjHas, List.find?]
  | cons p t ih =>
    rw [adjAdd_cons, adjLookup_cons]
    by_cases hpk : p.1 = k
    · by_cases hpv : p.1 = v
      · have hvk : v = k := by rw [← hpv, hpk]
        simp [hpk, hpv, hvk, adjLookup_cons, adjHas_cons]
      · have hvk : ¬ v = k := by
          intro hvk
          exact hpv (by rw [hpk, ← hvk])
        simp only [if_pos hpk]
        rw [adjLookup_cons]
        simp only [hpv, if_false]
        rw [ih]
        simp [hvk]
    · by_cases hpv : p.1 = v
      · have hvk : ¬ v = k := by
          intro hvk
          exact hpk (by rw [hpv, hvk])
        simp [hpk, hpv, hvk, adjLookup_cons]
      · simp only [if_neg hpk]
        rw [adjLookup_cons, if_neg hpv, ih, adjHas_cons, if_neg hpk]
        simp [hpv]

/-- Neighbour membership after processing one edge: the edge contributes
exactly its two directed entries, everything else is unchanged. -/
theorem mem_adjLookup_buildAdjStep (m : AdjMap) (e : Edge) (u v : String) :
    v ∈ adjLookup (buildAdjStep m e) u ↔
      v ∈ adjLookup m u ∨ (u = e.source ∧ v = e.target) ∨
        (u = e.target ∧ v = e.source) := by
  unfold buildAdjStep
  have h2s : adjHas (adjEnsure (adjEnsure m e.source) e.target) e.source = true :=
    adjHas_adjEnsure_of _ _ _ (adjHas_adjEnsure_self m e.source)
  have h3t : adjHas
      (adjAdd (adjEnsure (adjEnsure m e.source) e.target) e.source e.target)
      e.target = true := by
    rw [adjHas_adjAdd]
    exact adjHas_adjEnsure_self _ _
  rw [adjLookup_adjAdd, adjLookup_adjAdd, adjLookup_adjEnsure,
    adjLookup_adjEnsure]
  by_cases hut : u = e.target <;> by_cases hus : u = e.source
  · have hts : e.target = e.source := by rw [← hut, ← hus]
    rw [hts] at h2s h3t
    simp [hut, hus, hts, h2s, h3t, mem_insertUnique]
  · have hts : ¬ e.target = e.source := by rw [← hut]; exact hus
    simp [hut, hus, hts, h2s, h3t, mem_insertUnique]
  · have hst : ¬ e.source = e.target := by rw [← hus]; exact hut
    simp [hut, hus, hst, h2s, h3t, mem_insertUnique]
  · simp [hut, hus, h2s, h3t, mem_insertUnique]

/-- Symmetry of the built adjacency, as an invariant of the edge fold. -/
theorem buildAdjacency_symm_aux (edges : List Edge) :
    ∀ m : AdjMap, (∀ u v, v ∈ adjLookup m u ↔ u ∈ adjLookup m v) →
      ∀ u v, v ∈ adjLookup (edges.foldl buildAdjStep m) u ↔
        u ∈ adjLookup (edges.foldl buildAdjStep m) v := by
  induction edges with
  | nil => exact fun m hm => hm
  | cons e rest ih =>
    intro m hm
    simp only [List.foldl_cons]
    apply ih
    intro u v
    rw [mem_adjLookup_buildAdjStep, mem_adjLookup_buildAdjStep, hm u v]
    tauto

/-- Irreflexivity of the built adjacency when no edge is a self-loop, as
an invariant of the edge fold. -/
theorem buildAdjacency_irrefl_aux (edges : List Edge)
    (hedges : ∀ e ∈ edges, e.source ≠ e.target) :
    ∀ m : AdjMap, (∀ u, u ∉ adjLookup m u) →
      ∀ u, u ∉ adjLookup (edges.foldl buildAdjStep m) u := by
  induction edges with
  | nil => exact fun m hm => hm
  | cons e rest ih =>
    intro m hm
    simp only [List.foldl_cons]
    apply ih (fun e' he' => hedges e' (List.mem_cons_of_mem _ he'))
    intro u
    rw [mem_adjLookup_buildAdjStep]
    have hne := hedges e (List.mem_cons_self _ _)
    push_neg
    refine ⟨hm u, fun h1 h2 => hne ?_, fun h1 h2 => hne ?_⟩
    · rw [← h1, ← h2]
    · rw [← h1, ← h2]

/-- C3 (counterexample): self-loop edges are not dropped.  On the single
input edge `(A, A)` the built graph has `A ∈ adj[A]`, so the claimed
irreflexivity fails. -/
theorem selfLoop_not_dropped :
    "A" ∈ adjLookup (buildAdjacency [⟨"A", "A"⟩]) "A" := by decide

/-- C3 (amended): for every list of input edges the built adjacency is
symmetric (`v ∈ adj[u] ↔ u ∈ adj[v]`); it is irreflexive provided no input
edge is a self-loop — self-loop edges are kept, not dropped, and each one
puts its endpoint into that endpoint's own neighbour set. -/
theorem buildAdjacency_symm_irrefl (edges : List Edge) :
    (∀ u v, v ∈ adjLookup (buildAdjacency edges) u ↔
      u ∈ adjLookup (buildAdjacency edges) v) ∧
    ((∀ e ∈ edges, e.source ≠ e.target) →
      ∀ u, u ∉ adjLookup (buildAdjacency edges) u) := by
  constructor
  · exact buildAdjacency_symm_aux edges [] (by simp [adjLookup]) 
  · intro hedges
    exact buildAdjacency_irrefl_aux edges hedges [] (by simp [adjLookup])

/-- C3 (witness): on the single edge `(A, B)` the amended statement gives
the symmetry instance for `(A, B)` and irreflexivity at `A`. -/
theorem buildAdjacency_symm_irrefl_witness :
    ("B" ∈ adjLookup (buildAdjacency [⟨"A", "B"⟩]) "A" ↔
      "A" ∈ adjLookup (buildAdjacency [⟨"A", "B"⟩]) "B") ∧
    "A" ∉ adjLookup (buildAdjacency [⟨"A", "B"⟩]) "A" :=
  ⟨(buildAdjacency_symm_irrefl [⟨"A", "B"⟩]).1 "A" "B",
   (buildAdjacency_symm_irrefl [⟨"A", "B"⟩]).2 (by decide) "A"⟩

/-! ## Embedding skeleton lemmas -/

/-- Inserting increments the length. -/
theorem length_insertDescBy (key : α → ℕ) (x : α) (l : List α) :
    (insertDescBy key x l).length = l.length + 1 := by
  induction l with
  | nil => rfl
  | cons y ys ih =>
    unfold insertDescBy
    split
    · rfl
    · simp [ih]

/-- The stable sort preserves length. -/
theorem length_sortDescBy (key : α → ℕ) (l : List α) :
    (sortDescBy key l).length = l.length := by
  suffices h : ∀ acc : List α,
      (l.foldl (fun acc x => insertDescBy key x acc) acc).length =
        acc.length + l.length by
    simpa using h []
  induction l with
  | nil => simp
  | cons y ys ih =>
    intro acc
    simp only [List.foldl_cons]
    rw [ih, length_insertDescBy]
    simp only [List.length_cons]
    omega

/-- Mapping the id projection over the emitted node records recovers the
sorted id list. -/
theorem mapIdx_id_proj (l : List String)
    (f : ℕ → String → EmbeddedNode) (hf : ∀ i a, (f i a).id = a) :
    (l.mapIdx f).map (fun n => n.id) = l := by
  induction l generalizing f with
  | nil => rfl
  | cons a t ih =>
    rw [List.mapIdx_cons, List.map_cons, hf, ih (fun i => f (i + 1)) (fun i a => hf (i + 1) a)]

/-- The emitted node list is the sorted ids decorated with coordinates. -/
theorem embedNetwork_nodes_ids (csv : String) (rand : ℕ → ℝ) :
    ((embedNetwork csv rand).nodes).map (fun n => n.id) = embedSorted csv := by
  exact mapIdx_id_proj _ _ (fun i a => rfl)

/-- Unfolding lemma: the emitted node list is the sorted ids decorated
with the radial, angular and hidden-degree coordinates. -/
theorem embedNetwork_nodes_eq (csv : String) (rand : ℕ → ℝ) :
    (embedNetwork csv rand).nodes =
      (embedSorted csv).mapIdx (fun index id =>
        { id := id
          r := kappaToR (embedKappaAt csv id) (embedKappa0 csv) (embedR csv)
          theta := embedThetas csv rand index
          kappa := embedKappaAt csv id
          degree := embedDegreeOf csv id }) := rfl

/-- C2 (amended): the implementation performs no degenerate-statistics
check and never signals `DegenerateStats` or aborts: its result type has
no error outcome, and on every input and draw stream it emits exactly one
node record per graph node, carrying the full sorted id list — while on
every degenerate input (estimated `beta ≤ 1` or `kappa0 ≤ 0`) the
spec-worded checked pipeline signals `DegenerateStats` and emits
nothing. -/
theorem embedNetwork_always_emits (csv : String) (rand : ℕ → ℝ) :
    (embedNetwork csv rand).nodes.length = embedN csv ∧
    ((embedNetwork csv rand).nodes).map (fun n => n.id) = embedSorted csv ∧
    (embedBeta csv ≤ 1 ∨ embedKappa0 csv ≤ 0 →
      specCheckedEmbedNetwork csv rand = SpecEmbedOutcome.degenerateStats) := by
  refine ⟨?_, embedNetwork_nodes_ids csv rand, ?_⟩
  · show ((embedSorted csv).mapIdx _).length = _
    rw [List.length_mapIdx]
    unfold embedSorted
    rw [length_sortDescBy]
    rfl
  · intro hdeg
    unfold specCheckedEmbedNetwork
    rw [if_pos hdeg]

/-- Witness for the amended C2 on the degenerate two-node input `A—B`
(clustering `0`, hence `beta = 1 ≤ 1`): the implementation emits both
nodes while the spec-worded pipeline signals `DegenerateStats`. -/
theorem embedNetwork_always_emits_witness :
    (embedNetwork "s,t\nA,B" (fun _ => 0)).nodes.length = embedN "s,t\nA,B" ∧
    specCheckedEmbedNetwork "s,t\nA,B" (fun _ => 0) =
      SpecEmbedOutcome.degenerateStats := by
  have h := embedNetwork_always_emits "s,t\nA,B" (fun _ => 0)
  refine ⟨h.1, h.2.2 ?_⟩
  left
  have hcl : embedClustering "s,t\nA,B" = 0 := by decide
  unfold embedBeta estimateBeta
  rw [hcl]
  norm_num

/-- C2 (counterexample): on the two-node input `A—B` the estimated
clustering is `0`, hence `beta = 1 ≤ 1` — the degenerate case — yet
`embedNetwork` still produces the full two-node embedded list instead of
signalling `DegenerateStats` and aborting. -/
theorem degenerate_beta_still_embeds :
    (embedNetwork "s,t\nA,B" (fun _ => 0)).stats.beta = some 1 ∧
    ((embedNetwork "s,t\nA,B" (fun _ => 0)).nodes).map (fun n => n.id) =
      ["A", "B"] ∧
    (embedNetwork "s,t\nA,B" (fun _ => 0)).nodes ≠ [] := by
  have hcl : embedClustering "s,t\nA,B" = 0 := by decide
  have hsorted : embedSorted "s,t\nA,B" = ["A", "B"] := by decide
  have hid : ((embedNetwork "s,t\nA,B" (fun _ => 0)).nodes).map
      (fun n => n.id) = ["A", "B"] := by
    rw [embedNetwork_nodes_ids, hsorted]
  refine ⟨?_, hid, ?_⟩
  · show some (embedBeta "s,t\nA,B") = some 1
    unfold embedBeta estimateBeta
    rw [hcl]
    norm_num
  · intro h
    rw [h] at hid
    simp at hid

/-! ## C5: the empty graph -/

/-- On a zero-node input the sorted node list is empty. -/
theorem embedSorted_of_empty {csv : String} (h : embedN csv = 0) :
    embedSorted csv = [] := by
  have hids : embedNodeIds csv = [] := List.length_eq_zero.mp h
  unfold embedSorted
  rw [hids]
  rfl

/-- The gamma estimator returns the `NaN` marker on a degree list with no
positive entry. -/
theorem estimateGamma_nil : estimateGamma [] = none := by
  unfold estimateGamma
  rw [if_pos]
  decide

/-- C5 (amended): on an input that yields zero nodes, `embedNetwork`
returns an empty node list and a stats record with `N = 0` and with
`kBar`, `gamma`, `R`, `kappa0` equal to `NaN` — but `clustering` is the
genuine number `0` (the estimator's empty-sample fallback) and `beta` is
the genuine number `1`, not `NaN`. -/
theorem embedNetwork_empty_graph (csv : String) (rand : ℕ → ℝ)
    (h : embedN csv = 0) :
    (embedNetwork csv rand).nodes = [] ∧
    (embedNetwork csv rand).stats.N = 0 ∧
    (embedNetwork csv rand).stats.kBar = none ∧
    (embedNetwork csv rand).stats.gamma = none ∧
    (embedNetwork csv rand).stats.R = none ∧
    (embedNetwork csv rand).stats.kappa0 = none ∧
    (embedNetwork csv rand).stats.clustering = some 0 ∧
    (embedNetwork csv rand).stats.beta = some 1 := by
  have hids : embedNodeIds csv = [] := List.length_eq_zero.mp h
  have hdeg : embedDegreeValues csv = [] := by
    unfold embedDegreeValues
    rw [hids]
    rfl
  have hgamma : embedGammaOpt csv = none := by
    unfold embedGammaOpt
    rw [hdeg]
    exact estimateGamma_nil
  have hcl : embedClustering csv = 0 := by
    unfold embedClustering estimateClustering clusteringContribs
    rw [hids]
    rfl
  refine ⟨?_, ?_, ?_, ?_, ?_, ?_, ?_, ?_⟩
  · show (embedSorted csv).mapIdx _ = []
    rw [embedSorted_of_empty h]
    rfl
  · exact h
  · show (if embedN csv = 0 then none else some (embedKBar csv)) = none
    rw [if_pos h]
  · exact hgamma
  · show (if embedN csv = 0 ∨ embedGammaOpt csv = none then none
      else some (embedR csv)) = none
    rw [if_pos (Or.inl h)]
  · show (if embedN csv = 0 ∨ embedGammaOpt csv = none then none
      else some (embedKappa0 csv)) = none
    rw [if_pos (Or.inl h)]
  · show some (embedClustering csv) = some 0
    rw [hcl]
  · show some (embedBeta csv) = some 1
    unfold embedBeta estimateBeta
    rw [hcl]
    norm_num

/-- C5 (witness): the empty input yields zero nodes, and the amended
conclusions hold there. -/
theorem embedNetwork_empty_graph_witness :
    embedN "" = 0 ∧
    (embedNetwork "" (fun _ => 0)).stats.clustering = some 0 ∧
    (embedNetwork "" (fun _ => 0)).stats.beta = some 1 :=
  ⟨by decide,
   (embedNetwork_empty_graph "" (fun _ => 0) (by decide)).2.2.2.2.2.2.1,
   (embedNetwork_empty_graph "" (fun _ => 0) (by decide)).2.2.2.2.2.2.2⟩

/-- C5 (counterexample): the claim says every stats field besides `N` is
`NaN` on the empty graph; but `clustering` and `beta` are genuine numbers
(`0` and `1`) there — the code's `count > 0 ? total / count : 0` fallback
and `1 + 1.75·0` never produce `NaN`. -/
theorem emptyGraph_clustering_beta_not_nan :
    (embedNetwork "" (fun _ => 0)).stats.clustering = some 0 ∧
    (embedNetwork "" (fun _ => 0)).stats.clustering ≠ none ∧
    (embedNetwork "" (fun _ => 0)).stats.beta = some 1 ∧
    (embedNetwork "" (fun _ => 0)).stats.beta ≠ none := by
  have hcl : embedClustering "" = 0 := by decide
  have hb : (embedNetwork "" (fun _ => 0)).stats.beta = some 1 := by
    show some (embedBeta "") = some 1
    unfold embedBeta estimateBeta
    rw [hcl]
    norm_num
  have hc : (embedNetwork "" (fun _ => 0)).stats.clustering = some 0 := by
    show some (embedClustering "") = some 0
    rw [hcl]
  exact ⟨hc, by rw [hc]; simp, hb, by rw [hb]; simp⟩

/-! ## C7: the gamma estimator -/

/-- Membership in a descending insertion. -/
theorem mem_insertDescBy (key : α → ℕ) (x z : α) (l : List α) :
    z ∈ insertDescBy key x l ↔ z = x ∨ z ∈ l := by
  induction l with
  | nil => simp [insertDescBy]
  | cons y ys ih =>
    unfold insertDescBy
    split
    · simp
    · simp [ih]
      tauto

/-- Membership is preserved by the stable sort. -/
theorem mem_sortDescBy (key : α → ℕ) (l : List α) (z : α) :
    z ∈ sortDescBy key l ↔ z ∈ l := by
  suffices h : ∀ acc : List α,
      (z ∈ l.foldl (fun acc x => insertDescBy key x acc) acc ↔
        z ∈ acc ∨ z ∈ l) by
    simpa using h []
  induction l with
  | nil => simp
  | cons y ys ih =>
    intro acc
    simp only [List.foldl_cons]
    rw [ih]
    rw [mem_insertDescBy]
    simp
    tauto

/-- Every tail entry is positive. -/
theorem mem_gammaTail_pos (degrees : List ℕ) (k : ℕ)
    (h : k ∈ gammaTail degrees) : 0 < k := by
  unfold gammaTail at h
  have h2 : k ∈ gammaSorted degrees := List.mem_of_mem_take h
  unfold gammaSorted at h2
  rw [mem_sortDescBy] at h2
  exact of_decide_eq_true (List.mem_filter.mp h2).2

/-- The minimum tail entry is a tail member when the tail is nonempty. -/
theorem gammaKMin_mem (degrees : List ℕ) (h : gammaTail degrees ≠ []) :
    gammaKMin degrees ∈ gammaTail degrees := by
  unfold gammaKMin
  rw [List.getLastD_eq_getLast?, List.getLast?_eq_getLast _ h]
  simp [List.getLast_mem]

/-- The tail is nonempty as soon as some degree is positive. -/
theorem gammaTail_ne_nil (degrees : List ℕ) (h : ∃ d ∈ degrees, 0 < d) :
    gammaTail degrees ≠ [] := by
  obtain ⟨d, hd, hdpos⟩ := h
  have hmem : d ∈ gammaSorted degrees := by
    unfold gammaSorted
    rw [mem_sortDescBy]
    exact List.mem_filter.mpr ⟨hd, by simpa using hdpos⟩
  have hne : gammaSorted degrees ≠ [] := fun hnil => by simp [hnil] at hmem
  unfold gammaTail
  rw [Ne, List.take_eq_nil_iff]
  push_neg
  exact ⟨by omega, hne⟩

/-- C7: for every degree list with at least one positive entry, the gamma
estimator returns `1 + n / Σ ln(k / kMin)` over the tail (top 20% of the
positive degrees sorted descending, never fewer than 10 entries, or all of
them when fewer exist — this is `gammaTail`), clamped into `[2.01, 4.0]`;
and whenever every tail value equals `kMin` (so the log-ratio sum is zero)
it returns the upper clamp `4.0`. -/
theorem estimateGamma_characterization (degrees : List ℕ)
    (h : ∃ d ∈ degrees, 0 < d) :
    (estimateGamma degrees =
      some (if gammaSumLog degrees = 0 then 4
        else max 2.01
          (min (1 + ((gammaTail degrees).length : ℝ) / gammaSumLog degrees)
            4))) ∧
    (∀ g : ℝ, estimateGamma degrees = some g → 2.01 ≤ g ∧ g ≤ 4) ∧
    ((∀ k ∈ gammaTail degrees, k = gammaKMin degrees) →
      estimateGamma degrees = some 4) := by
  have htail := gammaTail_ne_nil degrees h
  refine ⟨?_, ?_, ?_⟩
  · unfold estimateGamma
    rw [if_neg htail]
    split_ifs <;> rfl
  · intro g hg
    unfold estimateGamma at hg
    rw [if_neg htail] at hg
    by_cases hz : gammaSumLog degrees = 0
    · rw [if_pos hz] at hg
      have : g = 4 := by injection hg with h4; exact h4.symm
      rw [this]
      norm_num
    · rw [if_neg hz] at hg
      have hgeq : g = max 2.01
          (min (1 + ((gammaTail degrees).length : ℝ) / gammaSumLog degrees) 4) := by
        injection hg with h4; exact h4.symm
      rw [hgeq]
      constructor
      · exact le_max_left _ _
      · exact max_le (by norm_num) (min_le_right _ _)
  · intro hall
    have hkmin : 0 < gammaKMin degrees :=
      mem_gammaTail_pos degrees _ (gammaKMin_mem degrees htail)
    have hz : gammaSumLog degrees = 0 := by
      unfold gammaSumLog
      apply List.sum_eq_zero
      intro x hx
      simp only [List.mem_map] at hx
      obtain ⟨k, hk, hfk⟩ := hx
      subst hfk
      rw [hall k hk, div_self (Nat.cast_pos.mpr hkmin).ne', Real.log_one]
    unfold estimateGamma
    rw [if_neg htail, if_pos hz]

/-- C7 (witness): on the degree list `[3, 3, 3]` the whole tail equals
`kMin`, and the estimator returns the upper clamp `4`. -/
theorem estimateGamma_characterization_witness :
    estimateGamma [3, 3, 3] = some 4 :=
  (estimateGamma_characterization [3, 3, 3] ⟨3, by decide, by decide⟩).2.2
    (by decide)

/-! ## C10: randomness flows only into theta -/

/-- Two indexed decorations with equal projections have equal projected
lists. -/
theorem map_mapIdx_congr (l : List String) (f g : ℕ → String → EmbeddedNode)
    (p : EmbeddedNode → String × ℝ × ℝ × ℕ)
    (h : ∀ i a, p (f i a) = p (g i a)) :
    (l.mapIdx f).map p = (l.mapIdx g).map p := by
  induction l generalizing f g with
  | nil => rfl
  | cons a t ih =>
    rw [List.mapIdx_cons, List.mapIdx_cons, List.map_cons, List.map_cons,
      h 0 a]
    rw [ih (fun i => f (i + 1)) (fun i => g (i + 1))
      (fun i a => h (i + 1) a)]

/-- C10: the emitted statistics and, for every node, the id, kappa, r and
degree are identical across any two runs of `embedNetwork` on the same
input: the random draw stream influences only the theta coordinates. -/
theorem embedNetwork_rand_independent (csv : String) (rand₁ rand₂ : ℕ → ℝ) :
    (embedNetwork csv rand₁).stats = (embedNetwork csv rand₂).stats ∧
    (embedNetwork csv rand₁).stringAdjacency =
      (embedNetwork csv rand₂).stringAdjacency ∧
    ((embedNetwork csv rand₁).nodes).map
        (fun n => (n.id, n.kappa, n.r, n.degree)) =
      ((embedNetwork csv rand₂).nodes).map
        (fun n => (n.id, n.kappa, n.r, n.degree)) := by
  refine ⟨rfl, rfl, ?_⟩
  exact map_mapIdx_congr (embedSorted csv) _ _ _ (fun i a => rfl)

/-! ## C4: the phase-2 circular mean -/

/-- The paired sine/cosine accumulation equals the two mapped sums. -/
theorem foldl_sin_cos_sums (thetas : ℕ → ℝ) (l : List ℕ) (a b : ℝ) :
    l.foldl (fun acc j => (acc.1 + Real.sin (thetas j),
        acc.2 + Real.cos (thetas j))) (a, b) =
      (a + (l.map (fun j => Real.sin (thetas j))).sum,
       b + (l.map (fun j => Real.cos (thetas j))).sum) := by
  induction l generalizing a b with
  | nil => simp
  | cons x t ih =>
    rw [List.foldl_cons, ih]
    simp
    constructor <;> ring

/-- C4 (amended): the phase-2 assignment is the normalized `atan2` of the
sine and cosine sums over all of the node's neighbours — using whatever
angle each neighbour currently has, whether already placed or still at its
random initialisation — and a fresh uniform draw is used only when the
node has no neighbour at all. -/
theorem computeThetaCircularMeanFast_all_neighbours (targetIdx : ℕ)
    (thetas : ℕ → ℝ) (adjSets : ℕ → List ℕ) (randDraw : ℝ) :
    computeThetaCircularMeanFast targetIdx thetas adjSets randDraw =
      phase2AngleAllNeighbours targetIdx thetas adjSets randDraw := by
  unfold computeThetaCircularMeanFast phase2AngleAllNeighbours
  by_cases h : adjSets targetIdx = []
  · rw [if_pos h, if_pos h]
  · rw [if_neg h, if_neg h, foldl_sin_cos_sums]
    simp

/-- Angles already in the target interval are fixed by `normalizeAngle`. -/
theorem normalizeAngle_of_Ioc (x : ℝ) (h1 : -Real.pi < x) (h2 : x ≤ Real.pi) :
    normalizeAngle x = x := by
  have hpi := Real.pi_pos
  have htrunc : jsTrunc (x / (2 * Real.pi)) = 0 := by
    unfold jsTrunc
    by_cases hx : 0 ≤ x / (2 * Real.pi)
    · rw [if_pos hx]
      apply Int.floor_eq_zero_iff.mpr
      constructor
      · exact hx
      · rw [div_lt_one (by positivity)]
        nlinarith
    · rw [if_neg hx]
      apply Int.ceil_eq_zero_iff.mpr
      constructor
      · rw [lt_div_iff (by positivity)]
        nlinarith
      · exact (lt_of_not_ge hx).le
  have hmod : jsMod x (2 * Real.pi) = x := by
    unfold jsMod
    rw [htrunc]
    ring
  unfold normalizeAngle
  rw [hmod, if_neg (not_lt.mpr h2), if_neg (not_le.mpr h1)]

/-- Normalization maps `-π` to the representative `π` of the interval
`(-π, π]`. -/
theorem normalizeAngle_neg_pi : normalizeAngle (-Real.pi) = Real.pi := by
  have hpi := Real.pi_pos
  have hq : (-Real.pi) / (2 * Real.pi) = -(1 / 2) := by
    rw [div_eq_iff (by positivity : (0 : ℝ) < 2 * Real.pi).ne']
    ring
  have htrunc : jsTrunc ((-Real.pi) / (2 * Real.pi)) = 0 := by
    unfold jsTrunc
    rw [hq, if_neg (by norm_num)]
    apply Int.ceil_eq_zero_iff.mpr
    constructor <;> norm_num
  have hmod : jsMod (-Real.pi) (2 * Real.pi) = -Real.pi := by
    unfold jsMod
    rw [htrunc]
    ring
  unfold normalizeAngle
  rw [hmod, if_neg (by linarith), if_pos (le_refl _)]
  ring

/-- `atan2(1, 0) = π/2`. -/
theorem jsAtan2_one_zero : jsAtan2 1 0 = Real.pi / 2 := by
  unfold jsAtan2
  have h : (⟨0, 1⟩ : ℂ) = Complex.I := rfl
  rw [h, Complex.arg_I]

/-- C4 (counterexample): a phase-2 node (index 501, after the 500 anchors)
whose only neighbour (index 502) is not yet placed.  The code assigns the
circular mean of that neighbour's current (random-initialisation) angle,
here `π/2`; the claimed rule says the node has no already-placed
neighbour and must receive the fresh uniform draw, here `π` (from raw draw
`0`).  The two differ, refuting the claim. -/
theorem phase2_uses_unplaced_neighbours :
    computeThetaCircularMeanFast 501 (fun _ => Real.pi / 2)
        (fun _ => [502]) 0 = Real.pi / 2 ∧
    specPhase2Angle 501 (fun _ => Real.pi / 2) (fun _ => [502]) 0 = Real.pi ∧
    Real.pi / 2 ≠ Real.pi := by
  have hpi := Real.pi_pos
  refine ⟨?_, ?_, by intro h; linarith⟩
  · unfold computeThetaCircularMeanFast
    simp
    rw [jsAtan2_one_zero]
    exact normalizeAngle_of_Ioc _ (by linarith) (by linarith)
  · unfold specPhase2Angle
    simp
    exact normalizeAngle_neg_pi

/-! ## C1: the radial coordinate

Concrete evaluation of the embedding pipeline on `csvC1` (ten hubs of
degree 12, members of degree 10 and 11), followed by the proof that the
hub node `A` receives a strictly negative radial coordinate. -/

set_option maxRecDepth 20000

/-- The node list of the C1 graph, evaluated. -/
theorem hubGraph_nodes : embedNodeIds csvC1 = nodeIdsC1 := by decide

/-- The adjacency of the C1 graph, evaluated. -/
theorem hubGraph_adj : embedAdj csvC1 = adjC1 := by decide

/-- The degree function of the C1 graph factors through the evaluated
adjacency. -/
theorem hubGraph_degree_fun :
    embedDegreeOf csvC1 = fun v => (adjLookup adjC1 v).length := by
  funext v
  unfold embedDegreeOf
  rw [hubGraph_adj]

/-- The sorted node order of the C1 graph: hubs first. -/
theorem hubGraph_sorted : embedSorted csvC1 =
    ["A", "B", "C", "D", "E", "F", "G", "H", "I", "J", "K", "L", "M", "N",
      "O", "P", "Q", "R", "S", "T", "U", "V"] := by
  unfold embedSorted
  rw [hubGraph_degree_fun, hubGraph_nodes]
  decide

/-- The degree multiset of the C1 graph in node order. -/
theorem hubGraph_degreeValues : embedDegreeValues csvC1 =
    [12, 11, 11, 10, 10, 10, 10, 10, 10, 10, 10, 10, 10, 12, 12, 12, 12,
      12, 12, 12, 12, 12] := by
  unfold embedDegreeValues
  rw [hubGraph_degree_fun, hubGraph_nodes]
  decide

/-- The per-node clustering contributions of the C1 graph. -/
theorem hubGraph_contribs :
    clusteringContribs (embedNodeIds csvC1) (embedAdj csvC1) =
    [(1, 66), (10, 55), (10, 55), (0, 45), (0, 45), (0, 45), (0, 45),
      (0, 45), (0, 45), (0, 45), (0, 45), (0, 45), (0, 45), (1, 66),
      (1, 66), (1, 66), (1, 66), (1, 66), (1, 66), (1, 66), (1, 66),
      (1, 66)] := by
  rw [hubGraph_adj, hubGraph_nodes]
  decide

/-- Hub `A` has degree 12. -/
theorem hubGraph_degreeA : embedDegreeOf csvC1 "A" = 12 := by
  rw [hubGraph_degree_fun]
  decide

/-- The node count of the C1 graph. -/
theorem hubGraph_N : embedN csvC1 = 22 := by
  unfold embedN
  rw [hubGraph_nodes]
  decide
/-- Mean degree of the C1 graph. -/
theorem hubGraph_kBar : embedKBar csvC1 = 11 := by
  unfold embedKBar
  rw [hubGraph_degreeValues, hubGraph_N]
  norm_num

/-- Average clustering of the C1 graph. -/
theorem hubGraph_clustering : embedClustering csvC1 = 17 / 726 := by
  simp only [embedClustering, estimateClustering, hubGraph_contribs]
  norm_num

/-- Estimated beta of the C1 graph. -/
theorem hubGraph_beta : embedBeta csvC1 = 3023 / 2904 := by
  unfold embedBeta estimateBeta
  rw [hubGraph_clustering]
  norm_num

/-- The gamma estimate of the C1 graph is the upper clamp 4 (the ten tail
degrees are all 12, so the log-ratio sum vanishes). -/
theorem hubGraph_gamma : embedGammaOpt csvC1 = some 4 := by
  unfold embedGammaOpt
  rw [hubGraph_degreeValues]
  have htail : gammaTail
      [12, 11, 11, 10, 10, 10, 10, 10, 10, 10, 10, 10, 10, 12, 12, 12, 12,
        12, 12, 12, 12, 12] = List.replicate 10 12 := by decide
  have hkmin : gammaKMin
      [12, 11, 11, 10, 10, 10, 10, 10, 10, 10, 10, 10, 10, 12, 12, 12, 12,
        12, 12, 12, 12, 12] = 12 := by decide
  have hsum : gammaSumLog
      [12, 11, 11, 10, 10, 10, 10, 10, 10, 10, 10, 10, 10, 12, 12, 12, 12,
        12, 12, 12, 12, 12] = 0 := by
    unfold gammaSumLog
    rw [htail, hkmin]
    apply List.sum_eq_zero
    intro x hx
    simp only [List.mem_map, List.mem_replicate] at hx
    obtain ⟨k, ⟨-, rfl⟩, hfk⟩ := hx
    rw [← hfk, div_self (by norm_num), Real.log_one]
  unfold estimateGamma
  rw [if_neg (by rw [htail]; simp), if_pos hsum]

/-- Gamma value used downstream. -/
theorem hubGraph_gammaVal : embedGamma csvC1 = 4 := by
  unfold embedGamma
  rw [hubGraph_gamma]
  rfl

/-- `kappa0` of the C1 graph. -/
theorem hubGraph_kappa0 : embedKappa0 csvC1 = 22 / 3 := by
  unfold embedKappa0
  rw [hubGraph_gammaVal, hubGraph_kBar]
  norm_num

/-- The hidden degree of hub `A`: the degree estimate `12 - gamma/beta`
wins over the `kappa0` floor. -/
theorem hubGraph_kappaA : embedKappaAt csvC1 "A" = 24660 / 3023 := by
  unfold embedKappaAt computeKappa
  rw [hubGraph_degreeA, hubGraph_gammaVal, hubGraph_beta, hubGraph_kBar]
  push_cast
  rw [max_eq_right (by norm_num)]
  norm_num

/-- The analytic core of the C1 counterexample: with the C1 graph's
statistics (`beta = 3023/2904`, `kBar = 11`, `kappa0 = 22/3`,
`kappa_A = 24660/3023`, `N = 22`), the radial formula gives a strictly
negative value at the hub.  The only non-rational quantity is
`sin(π/β)`, bounded above by `π - π/β` (the sine of the small
complementary angle). -/
theorem hub_r_neg_core :
    2 * Real.log ((22 : ℝ) /
        (Real.pi * ((3023 / 2904 : ℝ) /
          (2 * Real.pi * 11 * Real.sin (Real.pi / (3023 / 2904 : ℝ)))) *
          (22 / 3) * (22 / 3))) -
      2 * Real.log ((24660 / 3023 : ℝ) / (22 / 3)) < 0 := by
  have hπ := Real.pi_pos
  have hβ1 : (1 : ℝ) < 3023 / 2904 := by norm_num
  have hβ0 : (0 : ℝ) < 3023 / 2904 := by norm_num
  have hfrac : Real.pi / (3023 / 2904 : ℝ) < Real.pi := by
    rw [div_lt_iff hβ0]
    nlinarith
  have hs_pos : 0 < Real.sin (Real.pi / (3023 / 2904 : ℝ)) :=
    Real.sin_pos_of_pos_of_lt_pi (by positivity) hfrac
  have hs_le : Real.sin (Real.pi / (3023 / 2904 : ℝ)) ≤
      Real.pi - Real.pi / (3023 / 2904 : ℝ) := by
    have h1 : Real.pi / (3023 / 2904 : ℝ) =
        Real.pi - (Real.pi - Real.pi / (3023 / 2904 : ℝ)) := by ring
    calc Real.sin (Real.pi / (3023 / 2904 : ℝ))
        = Real.sin (Real.pi - (Real.pi - Real.pi / (3023 / 2904 : ℝ))) := by
          rw [← h1]
      _ = Real.sin (Real.pi - Real.pi / (3023 / 2904 : ℝ)) :=
          Real.sin_pi_sub _
      _ ≤ Real.pi - Real.pi / (3023 / 2904 : ℝ) :=
          Real.sin_le (by linarith)
  have hX : (22 : ℝ) /
      (Real.pi * ((3023 / 2904 : ℝ) /
        (2 * Real.pi * 11 * Real.sin (Real.pi / (3023 / 2904 : ℝ)))) *
        (22 / 3) * (22 / 3)) =
      9 * Real.sin (Real.pi / (3023 / 2904 : ℝ)) / (3023 / 2904 : ℝ) := by
    field_simp
    ring
  have hY : ((24660 : ℝ) / 3023) / (22 / 3) = 36990 / 33253 := by norm_num
  rw [hX, hY]
  have hXY : 9 * Real.sin (Real.pi / (3023 / 2904 : ℝ)) / (3023 / 2904 : ℝ) <
      36990 / 33253 := by
    have h2 : 9 * Real.sin (Real.pi / (3023 / 2904 : ℝ)) / (3023 / 2904 : ℝ) ≤
        9 * (Real.pi - Real.pi / (3023 / 2904 : ℝ)) / (3023 / 2904 : ℝ) := by
      gcongr
    have h3 : 9 * (Real.pi - Real.pi / (3023 / 2904 : ℝ)) / (3023 / 2904 : ℝ) <
        36990 / 33253 := by
      have hpilt : Real.pi < 3.15 := Real.pi_lt_315
      have heq : 9 * (Real.pi - Real.pi / (3023 / 2904 : ℝ)) / (3023 / 2904 : ℝ) =
          Real.pi * (3110184 / 9138529) := by
        field_simp
        ring
      rw [heq]
      nlinarith
    linarith
  have hlog := Real.log_lt_log (by positivity) hXY
  linarith

/-- C1 (counterexample): the embedding completes on `csvC1` and emits the
hub `A` first, but its radial coordinate `r = R - 2·ln(κ/κ₀)` is strictly
negative: `κ ≥ κ₀` only guarantees `r ≤ R`, not `r ≥ 0`, and here
`κ_A/κ₀ ≈ 1.112` exceeds `e^{R/2} ≈ 1.066`. -/
theorem hub_node_r_negative :
    (embedNetwork csvC1 (fun _ => 0)).nodes ≠ [] ∧
    ((embedNetwork csvC1 (fun _ => 0)).nodes.headI).r < 0 := by
  constructor
  · have hids := embedNetwork_nodes_ids csvC1 (fun _ => 0)
    rw [hubGraph_sorted] at hids
    intro h
    rw [h] at hids
    simp at hids
  · rw [embedNetwork_nodes_eq, hubGraph_sorted, List.mapIdx_cons]
    show kappaToR (embedKappaAt csvC1 "A") (embedKappa0 csvC1)
      (embedR csvC1) < 0
    unfold kappaToR embedR embedMu
    rw [hubGraph_kappaA, hubGraph_kappa0, hubGraph_beta, hubGraph_kBar,
      hubGraph_N]
    push_cast
    exact hub_r_neg_core

/-! ## C1 (amended): `r ≤ R` for every emitted node -/

/-- The head of a nonempty list is a member. -/
theorem headI_mem_of_ne_nil [Inhabited α] (l : List α) (h : l ≠ []) :
    l.headI ∈ l := by
  cases l with
  | nil => exact absurd rfl h
  | cons a t => simp

/-- Decomposition of membership in an indexed map. -/
theorem mem_mapIdx_exists {f : ℕ → String → EmbeddedNode} {l : List String}
    {n : EmbeddedNode} (h : n ∈ l.mapIdx f) : ∃ i a, a ∈ l ∧ n = f i a := by
  induction l generalizing f with
  | nil => simp at h
  | cons x t ih =>
    rw [List.mapIdx_cons] at h
    rcases List.mem_cons.mp h with h | h
    · exact ⟨0, x, List.mem_cons_self _ _, h⟩
    · obtain ⟨i, a, ha, hn⟩ := ih h
      exact ⟨i + 1, a, List.mem_cons_of_mem _ ha, hn⟩

/-- Every node of the built graph has a nonempty neighbour set. -/
theorem buildGraph_adj_ne_nil (edges : List Edge) :
    ∀ v ∈ buildNodes edges, adjLookup (buildAdjacency edges) v ≠ [] := by
  unfold buildNodes buildAdjacency
  suffices h : ∀ (es : List Edge) (ns : List String) (m : AdjMap),
      (∀ v ∈ ns, adjLookup m v ≠ []) →
      ∀ v ∈ es.foldl
        (fun ns e => insertUnique (insertUnique ns e.source) e.target) ns,
        adjLookup (es.foldl buildAdjStep m) v ≠ [] from
    h edges [] [] (by simp)
  intro es
  induction es with
  | nil => intro ns m hm; simpa using hm
  | cons e rest ih =>
    intro ns m hm
    simp only [List.foldl_cons]
    apply ih
    intro v hv
    rw [mem_insertUnique] at hv
    rcases hv with hv | rfl
    · rw [mem_insertUnique] at hv
      rcases hv with hv | rfl
      · have hne := hm v hv
        obtain ⟨w, hw⟩ := List.exists_mem_of_ne_nil _ hne
        intro hcontra
        have hmem : w ∈ adjLookup (buildAdjStep m e) v :=
          (mem_adjLookup_buildAdjStep m e v w).mpr (Or.inl hw)
        rw [hcontra] at hmem
        exact absurd hmem (List.not_mem_nil w)
      · intro hcontra
        have hmem : e.target ∈ adjLookup (buildAdjStep m e) e.source :=
          (mem_adjLookup_buildAdjStep m e e.source e.target).mpr
            (Or.inr (Or.inl ⟨rfl, rfl⟩))
        rw [hcontra] at hmem
        exact absurd hmem (List.not_mem_nil e.target)
    · intro hcontra
      have hmem : e.source ∈ adjLookup (buildAdjStep m e) e.target :=
        (mem_adjLookup_buildAdjStep m e e.target e.source).mpr
          (Or.inr (Or.inr ⟨rfl, rfl⟩))
      rw [hcontra] at hmem
      exact absurd hmem (List.not_mem_nil e.source)

/-- Every graph node has positive degree (it gained a neighbour from the
edge that introduced it). -/
theorem embedDegree_pos (csv : String) (v : String)
    (hv : v ∈ embedNodeIds csv) : 0 < embedDegreeOf csv v := by
  unfold embedDegreeOf
  rw [List.length_pos]
  exact buildGraph_adj_ne_nil (embedEdges csv) v hv

/-- A list of positive naturals is bounded below in sum by its length. -/
theorem length_le_sum_of_one_le (l : List ℕ) (h : ∀ x ∈ l, 1 ≤ x) :
    l.length ≤ l.sum := by
  induction l with
  | nil => simp
  | cons x t ih =>
    simp only [List.length_cons, List.sum_cons]
    have hx := h x (List.mem_cons_self _ _)
    have ht := ih (fun y hy => h y (List.mem_cons_of_mem _ hy))
    omega

/-- The mean degree of a nonempty graph is at least 1. -/
theorem embedKBar_ge_one (csv : String) (h : embedNodeIds csv ≠ []) :
    1 ≤ embedKBar csv := by
  unfold embedKBar
  have hN : 0 < embedN csv := by
    unfold embedN
    exact List.length_pos.mpr h
  have hsum : embedN csv ≤ (embedDegreeValues csv).sum := by
    have hlen : (embedDegreeValues csv).length = embedN csv := by
      unfold embedDegreeValues embedN
      exact List.length_map _ _
    rw [← hlen]
    apply length_le_sum_of_one_le
    intro x hx
    unfold embedDegreeValues at hx
    rw [List.mem_map] at hx
    obtain ⟨v, hv, rfl⟩ := hx
    exact embedDegree_pos csv v hv
  rw [one_le_div (by exact_mod_cast hN)]
  exact_mod_cast hsum

/-- An estimate actually returned by the gamma estimator lies in the clamp
interval `[2.01, 4]`. -/
theorem estimateGamma_bounds (degrees : List ℕ) (g : ℝ)
    (h : estimateGamma degrees = some g) : 2.01 ≤ g ∧ g ≤ 4 := by
  unfold estimateGamma at h
  by_cases htail : gammaTail degrees = []
  · rw [if_pos htail] at h
    exact absurd h (by simp)
  · rw [if_neg htail] at h
    by_cases hz : gammaSumLog degrees = 0
    · rw [if_pos hz] at h
      have hg : g = 4 := by injection h with h4; exact h4.symm
      rw [hg]
      norm_num
    · rw [if_neg hz] at h
      have hg : g = max 2.01
          (min (1 + ((gammaTail degrees).length : ℝ) / gammaSumLog degrees)
            4) := by
        injection h with h4; exact h4.symm
      rw [hg]
      exact ⟨le_max_left _ _, max_le (by norm_num) (min_le_right _ _)⟩

/-- The gamma estimator returns a genuine number whenever some degree is
positive. -/
theorem estimateGamma_isSome_of_pos (degrees : List ℕ)
    (h : ∃ d ∈ degrees, 0 < d) : ∃ g, estimateGamma degrees = some g := by
  have htail := gammaTail_ne_nil degrees h
  unfold estimateGamma
  rw [if_neg htail]
  by_cases hz : gammaSumLog degrees = 0
  · exact ⟨4, by rw [if_pos hz]⟩
  · exact ⟨_, by rw [if_neg hz]⟩

/-- `kappa0` is strictly positive for every nonempty graph. -/
theorem embedKappa0_pos (csv : String) (h : embedNodeIds csv ≠ []) :
    0 < embedKappa0 csv := by
  obtain ⟨v, hv⟩ := List.exists_mem_of_ne_nil _ h
  have hpos : ∃ d ∈ embedDegreeValues csv, 0 < d := by
    refine ⟨embedDegreeOf csv v, ?_, embedDegree_pos csv v hv⟩
    unfold embedDegreeValues
    exact List.mem_map_of_mem _ hv
  obtain ⟨g, hg⟩ := estimateGamma_isSome_of_pos _ hpos
  have hb := estimateGamma_bounds _ _ hg
  have hgval : embedGamma csv = g := by
    unfold embedGamma embedGammaOpt
    rw [hg]
    rfl
  have hkbar := embedKBar_ge_one csv h
  unfold embedKappa0
  rw [hgval]
  have h1 : (0 : ℝ) < (embedKBar csv : ℝ) := by
    have : (1 : ℝ) ≤ (embedKBar csv : ℝ) := by exact_mod_cast hkbar
    linarith
  have h2 : (0 : ℝ) < g - 2 := by
    have := hb.1
    norm_num at this ⊢
    linarith
  have h3 : (0 : ℝ) < g - 1 := by
    have := hb.1
    norm_num at this ⊢
    linarith
  positivity

/-- C1 (amended): for every input on which the embedding runs and every
emitted node, the hidden degree is floored at `kappa0` and therefore the
radial coordinate satisfies `r ≤ R`.  (Non-negativity of `r` does not
hold: see the counterexample, where a hub receives `r < 0`.) -/
theorem embedded_r_le_R (csv : String) (rand : ℕ → ℝ) (n : EmbeddedNode)
    (hn : n ∈ (embedNetwork csv rand).nodes) :
    embedKappa0 csv ≤ n.kappa ∧ n.r ≤ embedR csv := by
  rw [embedNetwork_nodes_eq] at hn
  obtain ⟨i, a, ha, rfl⟩ := mem_mapIdx_exists hn
  have hane : embedNodeIds csv ≠ [] := by
    intro hnil
    have : a ∈ embedNodeIds csv := by
      have := ha
      unfold embedSorted at this
      rw [mem_sortDescBy] at this
      exact this
    rw [hnil] at this
    exact absurd this (List.not_mem_nil a)
  have hk0 := embedKappa0_pos csv hane
  have hkap : embedKappa0 csv ≤ embedKappaAt csv a := by
    unfold embedKappaAt computeKappa embedKappa0
    exact le_max_left _ _
  refine ⟨hkap, ?_⟩
  show kappaToR (embedKappaAt csv a) (embedKappa0 csv) (embedR csv) ≤
    embedR csv
  unfold kappaToR
  have hlog : 0 ≤ Real.log (embedKappaAt csv a / embedKappa0 csv) := by
    apply Real.log_nonneg
    rw [le_div_iff hk0]
    linarith
  linarith

/-- C1 (witness): on the two-node graph `A—B` the first emitted node
satisfies the amended bounds. -/
theorem embedded_r_le_R_witness :
    embedKappa0 "s,t\nA,B" ≤
      ((embedNetwork "s,t\nA,B" (fun _ => 0)).nodes.headI).kappa ∧
    ((embedNetwork "s,t\nA,B" (fun _ => 0)).nodes.headI).r ≤
      embedR "s,t\nA,B" := by
  apply embedded_r_le_R
  apply headI_mem_of_ne_nil
  intro h
  have hids := embedNetwork_nodes_ids "s,t\nA,B" (fun _ => 0)
  rw [h, show embedSorted "s,t\nA,B" = ["A", "B"] from by decide] at hids
  simp at hids

/-! ## Router: hop-attempt case analyses -/

/-- A candidate returned by the greedy scan is an unvisited neighbour. -/
theorem findClosestNeighbour_spec (c t : EmbeddedNode)
    (nbrs : List EmbeddedNode) (vis : List String)
    (prev : Option EmbeddedNode) (m : EmbeddedNode)
    (h : findClosestNeighbour c t nbrs vis prev = some m) :
    m ∈ nbrs ∧ m.id ∉ vis := by
  unfold findClosestNeighbour at h
  rw [Option.map_eq_some'] at h
  obtain ⟨⟨b, d⟩, hfold, hb⟩ := h
  subst hb
  suffices haux : ∀ (l : List EmbeddedNode) (acc : Option (EmbeddedNode × ℝ))
      (b : EmbeddedNode) (d : ℝ),
      l.foldl (fun best neighbour =>
        if neighbour.id ∈ vis ∨
            neighbour.id ∈ (prev.map (fun p => p.id)).toList then best
        else
          let dist := hyperbolicDistance neighbour t
          match best with
          | none => some (neighbour, dist)
          | some (bb, bestDistance) =>
            if dist < bestDistance then some (neighbour, dist)
            else some (bb, bestDistance)) acc = some (b, d) →
      acc = some (b, d) ∨ (b ∈ l ∧ b.id ∉ vis) by
    rcases haux nbrs none b d hfold with hacc | hgood
    · exact absurd hacc (by simp)
    · exact hgood
  intro l
  induction l with
  | nil =>
    intro acc b d hacc
    exact Or.inl hacc
  | cons x xs ih =>
    intro acc b d hfold
    rw [List.foldl_cons] at hfold
    rcases ih _ b d hfold with hacc | hgood
    · by_cases hskip : x.id ∈ vis ∨ x.id ∈ (prev.map (fun p => p.id)).toList
      · rw [if_pos hskip] at hacc
        exact Or.inl hacc
      · rw [if_neg hskip] at hacc
        push_neg at hskip
        cases acc with
        | none =>
          simp only at hacc
          have hbx : b = x := by
            have := hacc
            simp at this
            exact this.1.symm
          right
          rw [hbx]
          exact ⟨List.mem_cons_self _ _, hskip.1⟩
        | some p =>
          obtain ⟨bb, bd⟩ := p
          simp only at hacc
          by_cases hlt : hyperbolicDistance x t < bd
          · rw [if_pos hlt] at hacc
            have hbx : b = x := by
              have := hacc
              simp at this
              exact this.1.symm
            right
            rw [hbx]
            exact ⟨List.mem_cons_self _ _, hskip.1⟩
          · rw [if_neg hlt] at hacc
            exact Or.inl hacc
    · exact Or.inr ⟨List.mem_cons_of_mem _ hgood.1, hgood.2⟩

/-- With a well-formed index, every resolved neighbour's id is an index
key. -/
theorem mem_filterMap_nmLookup_keys (nodeMap : NodeMap) (ids : List String)
    (m : EmbeddedNode) (wf : ∀ p ∈ nodeMap, p.2.id = p.1)
    (h : m ∈ ids.filterMap (nmLookup nodeMap)) : m.id ∈ nmKeys nodeMap := by
  rw [List.mem_filterMap] at h
  obtain ⟨a, _, ha⟩ := h
  unfold nmLookup at ha
  rw [Option.map_eq_some'] at ha
  obtain ⟨p, hfind, hp⟩ := ha
  have hpmem : p ∈ nodeMap := List.mem_of_find?_eq_some hfind
  have := wf p hpmem
  unfold nmKeys
  rw [List.mem_map]
  exact ⟨p, hpmem, by rw [← hp, this]⟩

/-- Case analysis of a continuing forward attempt: either nothing moved
and the state is unchanged (and the side cannot move), or the walk took a
fresh unvisited, not-backward-visited neighbour. -/
theorem forwardAttempt_inr (s e : EmbeddedNode) (adj : AdjMap)
    (nm : NodeMap) (st st' : BidiState) (mv : Bool)
    (h : forwardAttempt s e adj nm st = Sum.inr (st', mv)) :
    (mv = false ∧ st' = st ∧ forwardCanMove e adj nm st = false) ∨
    (mv = true ∧ ∃ m, m.id ∉ st.forwardVisited ∧
      m.id ∉ st.backwardVisited ∧ m.id ≠ e.id ∧
      (∃ ids, adjFind? adj st.forwardCurrent.id = some ids ∧
        m ∈ ids.filterMap (nmLookup nm)) ∧
      st' = { st with
        forwardPath := st.forwardPath ++ [m]
        forwardVisited := st.forwardVisited ++ [m.id]
        forwardPrevious := some st.forwardCurrent
        forwardCurrent := m }) := by
  unfold forwardAttempt at h
  split at h
  · rename_i hfind
    simp only [Sum.inr.injEq, Prod.mk.injEq] at h
    refine Or.inl ⟨h.2.symm, h.1.symm, ?_⟩
    unfold forwardCanMove
    rw [hfind]
  · rename_i ids hfind
    split at h
    · rename_i hfc
      simp only [Sum.inr.injEq, Prod.mk.injEq] at h
      refine Or.inl ⟨h.2.symm, h.1.symm, ?_⟩
      unfold forwardCanMove
      rw [hfind]
      simp only [hfc, Option.isSome_none]
    · rename_i m hfc
      split at h
      · exact absurd h (by simp)
      · rename_i hmb
        split at h
        · exact absurd h (by simp)
        · rename_i hme
          simp only [Sum.inr.injEq, Prod.mk.injEq] at h
          refine Or.inr ⟨h.2.symm, m,
            (findClosestNeighbour_spec _ _ _ _ _ _ hfc).2, hmb, hme,
            ⟨ids, hfind, (findClosestNeighbour_spec _ _ _ _ _ _ hfc).1⟩,
            h.1.symm⟩

/-- Case analysis of a returning forward attempt: given that the end
node's id is backward-visited (an invariant of the loop), the only
returning branch is the meeting branch, which stitches the forward walk
with the reversed backward prefix before the first occurrence of the
meeting id. -/
theorem forwardAttempt_inl (s e : EmbeddedNode) (adj : AdjMap)
    (nm : NodeMap) (st : BidiState) (r : RoutingResult)
    (hend : e.id ∈ st.backwardVisited)
    (h : forwardAttempt s e adj nm st = Sum.inl r) :
    ∃ m, m.id ∉ st.forwardVisited ∧ m.id ∈ st.backwardVisited ∧
      r.success = true ∧
      r.meetingNode = some m ∧
      r.forwardPath = st.forwardPath ++ [m] ∧
      r.backwardPath = st.backwardPath.take
        ((st.backwardPath.findIdx (fun node => node.id = m.id)) + 1) ∧
      r.path = (st.forwardPath ++ [m]) ++
        (st.backwardPath.take
          (st.backwardPath.findIdx (fun node => node.id = m.id))).reverse := by
  unfold forwardAttempt at h
  split at h
  · exact absurd h (by simp)
  · rename_i ids hfind
    split at h
    · exact absurd h (by simp)
    · rename_i m hfc
      split at h
      · rename_i hmb
        simp only [Sum.inl.injEq] at h
        refine ⟨m, (findClosestNeighbour_spec _ _ _ _ _ _ hfc).2, hmb,
          ?_, ?_, ?_, ?_, ?_⟩ <;> rw [← h]
      · rename_i hmb
        split at h
        · rename_i hme
          exact absurd (hme ▸ hend) hmb
        · exact absurd h (by simp)

/-- Case analysis of a continuing backward attempt (mirror of
`forwardAttempt_inr`). -/
theorem backwardAttempt_inr (s e : EmbeddedNode) (adj : AdjMap)
    (nm : NodeMap) (st st' : BidiState) (mv : Bool)
    (h : backwardAttempt s e adj nm st = Sum.inr (st', mv)) :
    (mv = false ∧ st' = st ∧ backwardCanMove s adj nm st = false) ∨
    (mv = true ∧ ∃ m, m.id ∉ st.backwardVisited ∧
      m.id ∉ st.forwardVisited ∧ m.id ≠ s.id ∧
      (∃ ids, adjFind? adj st.backwardCurrent.id = some ids ∧
        m ∈ ids.filterMap (nmLookup nm)) ∧
      st' = { st with
        backwardPath := st.backwardPath ++ [m]
        backwardVisited := st.backwardVisited ++ [m.id]
        backwardPrevious := some st.backwardCurrent
        backwardCurrent := m }) := by
  unfold backwardAttempt at h
  split at h
  · rename_i hfind
    simp only [Sum.inr.injEq, Prod.mk.injEq] at h
    refine Or.inl ⟨h.2.symm, h.1.symm, ?_⟩
    unfold backwardCanMove
    rw [hfind]
  · rename_i ids hfind
    split at h
    · rename_i hfc
      simp only [Sum.inr.injEq, Prod.mk.injEq] at h
      refine Or.inl ⟨h.2.symm, h.1.symm, ?_⟩
      unfold backwardCanMove
      rw [hfind]
      simp only [hfc, Option.isSome_none]
    · rename_i m hfc
      split at h
      · exact absurd h (by simp)
      · rename_i hmf
        split at h
        · exact absurd h (by simp)
        · rename_i hms
          simp only [Sum.inr.injEq, Prod.mk.injEq] at h
          refine Or.inr ⟨h.2.symm, m,
            (findClosestNeighbour_spec _ _ _ _ _ _ hfc).2, hmf, hms,
            ⟨ids, hfind, (findClosestNeighbour_spec _ _ _ _ _ _ hfc).1⟩,
            h.1.symm⟩

/-- Case analysis of a returning backward attempt: with the start node's
id forward-visited (an invariant of the loop), the only returning branch
is the meeting branch on the forward walk. -/
theorem backwardAttempt_inl (s e : EmbeddedNode) (adj : AdjMap)
    (nm : NodeMap) (st : BidiState) (r : RoutingResult)
    (hstart : s.id ∈ st.forwardVisited)
    (h : backwardAttempt s e adj nm st = Sum.inl r) :
    ∃ m, m.id ∉ st.backwardVisited ∧ m.id ∈ st.forwardVisited ∧
      r.success = true ∧
      r.meetingNode = some m ∧
      r.forwardPath = st.forwardPath.take
        ((st.forwardPath.findIdx (fun node => node.id = m.id)) + 1) ∧
      r.backwardPath = st.backwardPath ++ [m] ∧
      r.path = st.forwardPath.take
          ((st.forwardPath.findIdx (fun node => node.id = m.id)) + 1) ++
        (st.backwardPath ++ [m]).dropLast.reverse := by
  unfold backwardAttempt at h
  split at h
  · exact absurd h (by simp)
  · rename_i ids hfind
    split at h
    · exact absurd h (by simp)
    · rename_i m hfc
      split at h
      · rename_i hmf
        simp only [Sum.inl.injEq] at h
        refine ⟨m, (findClosestNeighbour_spec _ _ _ _ _ _ hfc).2, hmf,
          ?_, ?_, ?_, ?_, ?_⟩ <;> rw [← h]
      · rename_i hmf
        split at h
        · rename_i hms
          exact absurd (hms ▸ hstart) hmf
        · exact absurd h (by simp)

/-! ## Router: invariant preservation -/

/-- The start id is always forward-visited. -/
theorem BidiInv.start_mem (h : BidiInv s e st) : s.id ∈ st.forwardVisited := by
  apply (h.fV_eq s.id).mpr
  unfold idsOf
  rw [List.mem_map]
  exact ⟨s, List.mem_of_mem_head? (by rw [h.fP_head]; simp), rfl⟩

/-- The end id is always backward-visited. -/
theorem BidiInv.end_mem (h : BidiInv s e st) : e.id ∈ st.backwardVisited := by
  apply (h.bV_eq e.id).mpr
  unfold idsOf
  rw [List.mem_map]
  exact ⟨e, List.mem_of_mem_head? (by rw [h.bP_head]; simp), rfl⟩

/-- A forward move preserves the loop invariant. -/
theorem BidiInv.forwardMove (h : BidiInv s e st) (m : EmbeddedNode)
    (hm1 : m.id ∉ st.forwardVisited) (hm2 : m.id ∉ st.backwardVisited) :
    BidiInv s e { st with
      forwardPath := st.forwardPath ++ [m]
      forwardVisited := st.forwardVisited ++ [m.id]
      forwardPrevious := some st.forwardCurrent
      forwardCurrent := m } := by
  have hids : idsOf (st.forwardPath ++ [m]) = idsOf st.forwardPath ++ [m.id] := by
    unfold idsOf
    rw [List.map_append]
    rfl
  refine ⟨?_, h.bV_eq, ?_, h.bP_nodup, ?_, ?_, h.bP_head⟩
  · intro x
    show x ∈ st.forwardVisited ++ [m.id] ↔ x ∈ idsOf (st.forwardPath ++ [m])
    simp only [hids, List.mem_append, List.mem_singleton]
    rw [← h.fV_eq x]
  · show (idsOf (st.forwardPath ++ [m])).Nodup
    rw [hids, List.nodup_append]
    refine ⟨h.fP_nodup, List.nodup_singleton _, ?_⟩
    intro a ha hb
    rw [List.mem_singleton] at hb
    subst hb
    exact hm1 ((h.fV_eq m.id).mpr ha)
  · intro x hx
    show x ∉ idsOf st.backwardPath
    rw [hids, List.mem_append, List.mem_singleton] at hx
    rcases hx with hx | rfl
    · exact h.disj x hx
    · intro hxb
      exact hm2 ((h.bV_eq m.id).mpr hxb)
  · show (st.forwardPath ++ [m]).head? = some s
    rw [List.head?_append, h.fP_head]
    rfl

/-- A backward move preserves the loop invariant. -/
theorem BidiInv.backwardMove (h : BidiInv s e st) (m : EmbeddedNode)
    (hm1 : m.id ∉ st.backwardVisited) (hm2 : m.id ∉ st.forwardVisited) :
    BidiInv s e { st with
      backwardPath := st.backwardPath ++ [m]
      backwardVisited := st.backwardVisited ++ [m.id]
      backwardPrevious := some st.backwardCurrent
      backwardCurrent := m } := by
  have hids : idsOf (st.backwardPath ++ [m]) =
      idsOf st.backwardPath ++ [m.id] := by
    unfold idsOf
    rw [List.map_append]
    rfl
  refine ⟨h.fV_eq, ?_, h.fP_nodup, ?_, ?_, h.fP_head, ?_⟩
  · intro x
    show x ∈ st.backwardVisited ++ [m.id] ↔ x ∈ idsOf (st.backwardPath ++ [m])
    simp only [hids, List.mem_append, List.mem_singleton]
    rw [← h.bV_eq x]
  · show (idsOf (st.backwardPath ++ [m])).Nodup
    rw [hids, List.nodup_append]
    refine ⟨h.bP_nodup, List.nodup_singleton _, ?_⟩
    intro a ha hb
    rw [List.mem_singleton] at hb
    subst hb
    exact hm1 ((h.bV_eq m.id).mpr ha)
  · intro x hx
    show x ∉ idsOf (st.backwardPath ++ [m])
    rw [hids]
    intro hxb
    rw [List.mem_append, List.mem_singleton] at hxb
    rcases hxb with hxb | rfl
    · exact h.disj x hx hxb
    · exact hm2 ((h.fV_eq m.id).mpr hx)
  · show (st.backwardPath ++ [m]).head? = some e
    rw [List.head?_append, h.bP_head]
    rfl

/-- The initial loop state satisfies the invariant when the endpoints
differ. -/
theorem BidiInv.init (s e : EmbeddedNode) (hne : s.id ≠ e.id) :
    BidiInv s e (initState s e) := by
  refine ⟨?_, ?_, ?_, ?_, ?_, rfl, rfl⟩ <;>
    simp [initState, idsOf, hne]

/-- No element strictly before the first index satisfying the id test has
that id. -/
theorem not_mem_ids_take_findIdx (l : List EmbeddedNode) (x : String) :
    x ∉ idsOf (l.take (l.findIdx (fun node => node.id = x))) := by
  induction l with
  | nil => simp [idsOf]
  | cons a t ih =>
    rw [List.findIdx_cons]
    by_cases ha : a.id = x
    · simp [ha, idsOf]
    · have hd : (decide (a.id = x)) = false := by simp [ha]
      rw [hd, cond_false, List.take_succ_cons]
      unfold idsOf
      rw [List.map_cons, List.mem_cons]
      push_neg
      exact ⟨fun hx => ha hx.symm, ih⟩

/-- When the head's id matches, the first index is zero. -/
theorem findIdx_head_eq_zero (l : List EmbeddedNode) (a : EmbeddedNode)
    (hhead : l.head? = some a) (x : String) (hx : a.id = x) :
    l.findIdx (fun node => node.id = x) = 0 := by
  cases l with
  | nil => simp at hhead
  | cons b t =>
    have hba : b = a := by
      rw [List.head?_cons, Option.some.injEq] at hhead
      exact hhead
    subst hba
    rw [List.findIdx_cons]
    simp [hx]

/-- The one-element prefix of a list with a known head. -/
theorem take_one_of_head? (l : List EmbeddedNode) (a : EmbeddedNode)
    (hhead : l.head? = some a) : l.take 1 = [a] := by
  cases l with
  | nil => simp at hhead
  | cons b t =>
    rw [List.head?_cons, Option.some.injEq] at hhead
    rw [hhead]
    rfl

/-! ## Router: concrete evaluation of the triangle run -/

/-- Between two nodes at radius zero the hyperbolic distance is zero. -/
theorem hyperbolicDistance_zero (n1 n2 : EmbeddedNode)
    (h1 : n1.r = 0) (h2 : n2.r = 0) : hyperbolicDistance n1 n2 = 0 := by
  unfold hyperbolicDistance jsAcosh
  rw [h1, h2]
  simp [Real.cosh_zero, Real.sinh_zero]

/-- Id of the concrete node `A`. -/
theorem rNodeA_id : rNodeA.id = "A" := rfl

/-- Id of the concrete node `B`. -/
theorem rNodeB_id : rNodeB.id = "B" := rfl

/-- Id of the concrete node `D`. -/
theorem rNodeD_id : rNodeD.id = "D" := rfl

/-- Distance `B`–`D` in the triangle instance. -/
theorem hD_BD : hyperbolicDistance rNodeB rNodeD = 0 :=
  hyperbolicDistance_zero _ _ rfl rfl

/-- Distance `D`–`D` in the triangle instance. -/
theorem hD_DD : hyperbolicDistance rNodeD rNodeD = 0 :=
  hyperbolicDistance_zero _ _ rfl rfl

/-- Distance `A`–`A` in the triangle instance. -/
theorem hD_AA : hyperbolicDistance rNodeA rNodeA = 0 :=
  hyperbolicDistance_zero _ _ rfl rfl

/-- Distance `B`–`A` in the triangle instance. -/
theorem hD_BA : hyperbolicDistance rNodeB rNodeA = 0 :=
  hyperbolicDistance_zero _ _ rfl rfl

/-- Distance `A`–`D` in the triangle instance. -/
theorem hD_AD : hyperbolicDistance rNodeA rNodeD = 0 :=
  hyperbolicDistance_zero _ _ rfl rfl

/-- Path length of the stitched triangle path. -/
theorem pathDistCE : pathDist [rNodeA, rNodeD] = 0 := by
  simp [pathDist, hD_AD]

/-- Forward candidate scan of the first iteration: ties at distance zero
keep the first neighbour, `B`. -/
theorem fcnCE1 :
    findClosestNeighbour rNodeA rNodeD [rNodeB, rNodeD] ["A"] none =
      some rNodeB := by
  unfold findClosestNeighbour
  simp [hD_BD, hD_DD, rNodeB_id, rNodeD_id]

/-- Backward candidate scan of the first iteration: ties at distance zero
keep the first neighbour, `A`. -/
theorem fcnCE2 :
    findClosestNeighbour rNodeD rNodeA [rNodeA, rNodeB] ["D"] none =
      some rNodeA := by
  unfold findClosestNeighbour
  simp [hD_AA, hD_BA, rNodeA_id, rNodeB_id]

/-- Resolving `A`'s neighbour ids through the index. -/
theorem fmapCE1 :
    (["B", "D"] : List String).filterMap (nmLookup rNodeMapCE) =
      [rNodeB, rNodeD] := rfl

/-- Resolving `D`'s neighbour ids through the index. -/
theorem fmapCE2 :
    (["A", "B"] : List String).filterMap (nmLookup rNodeMapCE) =
      [rNodeA, rNodeB] := rfl

/-- Adjacency entry of `A` in the triangle instance. -/
theorem adjFindCE1 : adjFind? rAdjCE "A" = some ["B", "D"] := rfl

/-- Adjacency entry of `D` in the triangle instance. -/
theorem adjFindCE2 : adjFind? rAdjCE "D" = some ["A", "B"] := rfl

/-- The first forward attempt of the triangle run moves `A → B`. -/
theorem forwardAttemptCE :
    forwardAttempt rNodeA rNodeD rAdjCE rNodeMapCE (initState rNodeA rNodeD) =
      Sum.inr (st1CE, true) := by
  unfold forwardAttempt
  simp [initState, rNodeA_id, rNodeB_id, rNodeD_id, adjFindCE1, fmapCE1,
    fcnCE1, st1CE]

/-- The first backward attempt of the triangle run meets the forward walk
at the start node `A` and returns the stitched result. -/
theorem backwardAttemptCE :
    backwardAttempt rNodeA rNodeD rAdjCE rNodeMapCE st1CE =
      Sum.inl rResultCE := by
  unfold backwardAttempt
  simp [st1CE, rNodeA_id, rNodeB_id, rNodeD_id, adjFindCE2, fmapCE2, fcnCE2,
    List.findIdx_cons, pathDistCE, hD_AD, rResultCE]

/-- The first full iteration of the triangle run returns. -/
theorem stepIterCE :
    stepIter rNodeA rNodeD rAdjCE rNodeMapCE (initState rNodeA rNodeD) =
      Sum.inl rResultCE := by
  unfold stepIter
  simp [forwardAttemptCE, backwardAttemptCE]

/-- Full evaluation of the triangle routing query `A → D`. -/
theorem routing_CE_eval :
    bidirectionalGreedyRouting rNodeA rNodeD rAdjCE rNodeMapCE =
      some rResultCE := by
  unfold bidirectionalGreedyRouting
  rw [if_neg (by decide : ¬ (rNodeA.id = rNodeD.id))]
  rw [show (nmKeys rNodeMapCE).length = 2 + 1 from rfl]
  unfold bidiLoop
  simp [stepIterCE]

/-! ## Router: soundness of returned results -/

/-- `idsOf` distributes over append. -/
theorem idsOf_append (l1 l2 : List EmbeddedNode) :
    idsOf (l1 ++ l2) = idsOf l1 ++ idsOf l2 := by
  unfold idsOf
  rw [List.map_append]

/-- `idsOf` commutes with reversal. -/
theorem idsOf_reverse (l : List EmbeddedNode) :
    idsOf l.reverse = (idsOf l).reverse := by
  unfold idsOf
  rw [List.map_reverse]

/-- `idsOf` of a prefix is a sublist of the full `idsOf`. -/
theorem idsOf_take_sublist (l : List EmbeddedNode) (n : ℕ) :
    (idsOf (l.take n)).Sublist (idsOf l) :=
  List.Sublist.map _ (List.take_sublist n l)

/-- Dropping the last element of a one-longer prefix. -/
theorem dropLast_take_succ (l : List EmbeddedNode) (n : ℕ) (hn : n < l.length) :
    (l.take (n + 1)).dropLast = l.take n := by
  rw [List.dropLast_eq_take, List.length_take, List.take_take]
  congr 1
  omega

/-- Any early return of the forward attempt from an invariant state is a
successful record whose path ids are duplicate-free and whose path is the
forward walk followed by the reversed backward walk without its final
node. -/
theorem forwardAttempt_inl_sound (s e : EmbeddedNode) (adj : AdjMap)
    (nm : NodeMap) (st : BidiState) (r : RoutingResult)
    (hinv : BidiInv s e st)
    (h : forwardAttempt s e adj nm st = Sum.inl r) :
    (idsOf r.path).Nodup ∧
      r.path = r.forwardPath ++ r.backwardPath.dropLast.reverse := by
  obtain ⟨m, hm1, hm2, _, _, hfp, hbp, hpath⟩ :=
    forwardAttempt_inl s e adj nm st r hinv.end_mem h
  have hmb : m.id ∈ idsOf st.backwardPath := (hinv.bV_eq m.id).mp hm2
  have hex : ∃ node ∈ st.backwardPath,
      (fun node => decide (node.id = m.id)) node = true := by
    unfold idsOf at hmb
    rw [List.mem_map] at hmb
    obtain ⟨nd, hnd, hndid⟩ := hmb
    exact ⟨nd, hnd, by simp [hndid]⟩
  have hk : st.backwardPath.findIdx (fun node => node.id = m.id) <
      st.backwardPath.length := List.findIdx_lt_length_of_exists hex
  constructor
  · rw [hpath, idsOf_append, idsOf_append, idsOf_reverse,
      show idsOf [m] = [m.id] from rfl]
    rw [List.nodup_append]
    refine ⟨?_, ?_, ?_⟩
    · rw [List.nodup_append]
      refine ⟨hinv.fP_nodup, List.nodup_singleton _, ?_⟩
      intro a ha hb
      rw [List.mem_singleton] at hb
      subst hb
      exact hm1 ((hinv.fV_eq m.id).mpr ha)
    · rw [List.nodup_reverse]
      exact (idsOf_take_sublist _ _).nodup hinv.bP_nodup
    · intro a ha hb
      rw [List.mem_reverse] at hb
      rw [List.mem_append] at ha
      rcases ha with ha | ha
      · exact hinv.disj a ha ((idsOf_take_sublist _ _).subset hb)
      · rw [List.mem_singleton] at ha
        subst ha
        exact not_mem_ids_take_findIdx st.backwardPath m.id hb
  · rw [hpath, hfp, hbp, dropLast_take_succ _ _ hk]

/-- Any early return of the backward attempt from an invariant state is a
successful record whose path ids are duplicate-free and whose path is the
forward walk followed by the reversed backward walk without its final
node. -/
theorem backwardAttempt_inl_sound (s e : EmbeddedNode) (adj : AdjMap)
    (nm : NodeMap) (st : BidiState) (r : RoutingResult)
    (hinv : BidiInv s e st)
    (h : backwardAttempt s e adj nm st = Sum.inl r) :
    (idsOf r.path).Nodup ∧
      r.path = r.forwardPath ++ r.backwardPath.dropLast.reverse := by
  obtain ⟨m, hm1, hm2, _, _, hfp, hbp, hpath⟩ :=
    backwardAttempt_inl s e adj nm st r hinv.start_mem h
  constructor
  · rw [hpath, idsOf_append, List.dropLast_concat, idsOf_reverse]
    rw [List.nodup_append]
    refine ⟨(idsOf_take_sublist _ _).nodup hinv.fP_nodup, ?_, ?_⟩
    · rw [List.nodup_reverse]
      exact hinv.bP_nodup
    · intro a ha hb
      rw [List.mem_reverse] at hb
      exact hinv.disj a ((idsOf_take_sublist _ _).subset ha) hb
  · rw [hpath, hfp, hbp]

/-- Any early return of a full loop iteration that reports success has a
duplicate-free path of the stitched shape. -/
theorem stepIter_inl_sound (s e : EmbeddedNode) (adj : AdjMap) (nm : NodeMap)
    (st : BidiState) (r : RoutingResult) (hinv : BidiInv s e st)
    (h : stepIter s e adj nm st = Sum.inl r) (hs : r.success = true) :
    (idsOf r.path).Nodup ∧
      r.path = r.forwardPath ++ r.backwardPath.dropLast.reverse := by
  unfold stepIter at h
  split at h
  · rename_i r0 hfa
    rw [Sum.inl.injEq] at h
    subst h
    exact forwardAttempt_inl_sound s e adj nm st _ hinv hfa
  · rename_i st1 fmv hfa
    have hinv1 : BidiInv s e st1 := by
      rcases forwardAttempt_inr s e adj nm st st1 fmv hfa with
        ⟨_, rfl, _⟩ | ⟨_, m, hm1, hm2, _, _, rfl⟩
      · exact hinv
      · exact hinv.forwardMove m hm1 hm2
    split at h
    · rename_i r0 hba
      rw [Sum.inl.injEq] at h
      subst h
      exact backwardAttempt_inl_sound s e adj nm st1 _ hinv1 hba
    · rename_i st2 bmv hba
      split at h
      · exact absurd h (by simp)
      · rw [Sum.inl.injEq] at h
        subst h
        simp at hs

/-- A continuing full loop iteration preserves the invariant. -/
theorem stepIter_inr_inv (s e : EmbeddedNode) (adj : AdjMap) (nm : NodeMap)
    (st st' : BidiState) (hinv : BidiInv s e st)
    (h : stepIter s e adj nm st = Sum.inr st') : BidiInv s e st' := by
  unfold stepIter at h
  split at h
  · exact absurd h (by simp)
  · rename_i st1 fmv hfa
    have hinv1 : BidiInv s e st1 := by
      rcases forwardAttempt_inr s e adj nm st st1 fmv hfa with
        ⟨_, rfl, _⟩ | ⟨_, m, hm1, hm2, _, _, rfl⟩
      · exact hinv
      · exact hinv.forwardMove m hm1 hm2
    split at h
    · exact absurd h (by simp)
    · rename_i st2 bmv hba
      have hinv2 : BidiInv s e st2 := by
        rcases backwardAttempt_inr s e adj nm st1 st2 bmv hba with
          ⟨_, rfl, _⟩ | ⟨_, m, hm1, hm2, _, _, rfl⟩
        · exact hinv1
        · exact hinv1.backwardMove m hm1 hm2
      split at h
      · rw [Sum.inr.injEq] at h
        subst h
        exact hinv2
      · exact absurd h (by simp)

/-- Every successful result the fuelled loop produces from an invariant
state has a duplicate-free path of the stitched shape. -/
theorem bidiLoop_sound (s e : EmbeddedNode) (adj : AdjMap) (nm : NodeMap) :
    ∀ (fuel : ℕ) (st : BidiState) (r : RoutingResult), BidiInv s e st →
      bidiLoop s e adj nm fuel st = some r → r.success = true →
      (idsOf r.path).Nodup ∧
        r.path = r.forwardPath ++ r.backwardPath.dropLast.reverse := by
  intro fuel
  induction fuel with
  | zero =>
    intro st r _ hrun _
    exact absurd hrun (by simp [bidiLoop])
  | succ n ih =>
    intro st r hinv hrun hs
    unfold bidiLoop at hrun
    split at hrun
    · rename_i r0 hstep
      rw [Option.some.injEq] at hrun
      subst hrun
      exact stepIter_inl_sound s e adj nm st _ hinv hstep hs
    · rename_i st' hstep
      exact ih st' r (stepIter_inr_inv s e adj nm st st' hinv hstep) hrun hs

/-- C8: on every successful bidirectional routing query the node ids in
the returned path are pairwise distinct — the stitched path is simple.
(The identity short-circuit returns the singleton path; every loop return
is covered by the invariant-based soundness of the stitching.) -/
theorem routing_success_path_simple (s e : EmbeddedNode) (adj : AdjMap)
    (nm : NodeMap) (r : RoutingResult)
    (h : bidirectionalGreedyRouting s e adj nm = some r)
    (hs : r.success = true) : (idsOf r.path).Nodup := by
  unfold bidirectionalGreedyRouting at h
  split at h
  · rw [Option.some.injEq] at h
    subst h
    simp [idsOf]
  · rename_i hne
    exact (bidiLoop_sound s e adj nm _ _ r (BidiInv.init s e hne) h hs).1

/-- Witness for C8 on the concrete triangle query. -/
theorem routing_success_path_simple_witness : (idsOf rResultCE.path).Nodup :=
  routing_success_path_simple rNodeA rNodeD rAdjCE rNodeMapCE rResultCE
    routing_CE_eval rfl

/-- C6 (amended): with distinct endpoints, every successful routing result
satisfies `path = forwardPath ++ reverse(dropLast backwardPath)`.  The
"forward walk reaches end directly" and "backward walk reaches start
directly" branches are shadowed by the meeting branches (the endpoints are
in the visited sets from initialisation), and the meeting branches always
stitch the returned path this way. -/
theorem routing_success_path_stitch (s e : EmbeddedNode) (adj : AdjMap)
    (nm : NodeMap) (r : RoutingResult) (hne : s.id ≠ e.id)
    (h : bidirectionalGreedyRouting s e adj nm = some r)
    (hs : r.success = true) :
    r.path = r.forwardPath ++ r.backwardPath.dropLast.reverse := by
  unfold bidirectionalGreedyRouting at h
  rw [if_neg hne] at h
  exact (bidiLoop_sound s e adj nm _ _ r (BidiInv.init s e hne) h hs).2

/-- Witness for the amended C6 on the concrete triangle query. -/
theorem routing_success_path_stitch_witness :
    rNodeA.id ≠ rNodeD.id ∧
      rResultCE.path =
        rResultCE.forwardPath ++ rResultCE.backwardPath.dropLast.reverse :=
  ⟨by decide, routing_success_path_stitch rNodeA rNodeD rAdjCE rNodeMapCE
    rResultCE (by decide) routing_CE_eval rfl⟩

/-- C6 counterexample: on the triangle `A—B—D` with all-zero coordinates,
routing from `A` to `D` succeeds with the backward walk meeting the start
node itself (`meetingNode = A`), yet the returned path has id sequence
`[A, D]` while the claimed formula `forwardPath ++ reverse(backwardPath[1..])`
yields the id sequence `[A, A]`: the claim's stitching formula does not
describe the returned path. -/
theorem backward_reach_start_not_claimed_stitch :
    rNodeA.id ≠ rNodeD.id ∧
    ∃ r, bidirectionalGreedyRouting rNodeA rNodeD rAdjCE rNodeMapCE = some r ∧
      r.success = true ∧ r.meetingNode = some rNodeA ∧
      idsOf r.path = ["A", "D"] ∧
      idsOf (r.forwardPath ++ (r.backwardPath.drop 1).reverse) = ["A", "A"] :=
  ⟨by decide, rResultCE, routing_CE_eval, rfl, rfl, rfl, rfl⟩

/-! ## Router: termination within the node-count fuel -/

/-- The initial state satisfies the counting invariant when the endpoints
are distinct index keys. -/
theorem bidiCnt_init (s e : EmbeddedNode) (nm : NodeMap) (hne : s.id ≠ e.id)
    (hs : s.id ∈ nmKeys nm) (he : e.id ∈ nmKeys nm) :
    BidiCnt nm (initState s e) := by
  constructor
  · simp [initState, hne]
  · intro x hx
    simp [initState] at hx
    rcases hx with rfl | rfl
    · exact hs
    · exact he

/-- A forward move to a fresh key preserves the counting invariant. -/
theorem bidiCnt_forwardMove {nm : NodeMap} {st : BidiState}
    (h : BidiCnt nm st) (m : EmbeddedNode)
    (hm1 : m.id ∉ st.forwardVisited) (hm2 : m.id ∉ st.backwardVisited)
    (hk : m.id ∈ nmKeys nm) :
    BidiCnt nm { st with
      forwardPath := st.forwardPath ++ [m]
      forwardVisited := st.forwardVisited ++ [m.id]
      forwardPrevious := some st.forwardCurrent
      forwardCurrent := m } := by
  constructor
  · show ((st.forwardVisited ++ [m.id]) ++ st.backwardVisited).Nodup
    rw [List.append_assoc, List.singleton_append, List.nodup_middle,
      List.nodup_cons]
    refine ⟨?_, h.nodup⟩
    rw [List.mem_append]
    rintro (hx | hx)
    · exact hm1 hx
    · exact hm2 hx
  · intro x hx
    rw [show ({ st with
        forwardPath := st.forwardPath ++ [m]
        forwardVisited := st.forwardVisited ++ [m.id]
        forwardPrevious := some st.forwardCurrent
        forwardCurrent := m } : BidiState).forwardVisited =
      st.forwardVisited ++ [m.id] from rfl] at hx
    rw [List.append_assoc, List.singleton_append, List.mem_append,
      List.mem_cons] at hx
    rcases hx with hx | rfl | hx
    · exact h.keys x (List.mem_append_left _ hx)
    · exact hk
    · exact h.keys x (List.mem_append_right _ hx)

/-- A backward move to a fresh key preserves the counting invariant. -/
theorem bidiCnt_backwardMove {nm : NodeMap} {st : BidiState}
    (h : BidiCnt nm st) (m : EmbeddedNode)
    (hm1 : m.id ∉ st.backwardVisited) (hm2 : m.id ∉ st.forwardVisited)
    (hk : m.id ∈ nmKeys nm) :
    BidiCnt nm { st with
      backwardPath := st.backwardPath ++ [m]
      backwardVisited := st.backwardVisited ++ [m.id]
      backwardPrevious := some st.backwardCurrent
      backwardCurrent := m } := by
  constructor
  · show (st.forwardVisited ++ (st.backwardVisited ++ [m.id])).Nodup
    rw [← List.append_assoc]
    rw [show ([m.id] : List String) = m.id :: [] from rfl, List.nodup_middle,
      List.append_nil, List.nodup_cons]
    refine ⟨?_, h.nodup⟩
    rw [List.mem_append]
    rintro (hx | hx)
    · exact hm2 hx
    · exact hm1 hx
  · intro x hx
    rw [show ({ st with
        backwardPath := st.backwardPath ++ [m]
        backwardVisited := st.backwardVisited ++ [m.id]
        backwardPrevious := some st.backwardCurrent
        backwardCurrent := m } : BidiState).backwardVisited =
      st.backwardVisited ++ [m.id] from rfl] at hx
    rw [List.mem_append, List.mem_append, List.mem_singleton] at hx
    rcases hx with hx | hx | rfl
    · exact h.keys x (List.mem_append_left _ hx)
    · exact h.keys x (List.mem_append_right _ hx)
    · exact hk

/-- A continuing full loop iteration preserves the counting invariant and
grows the combined visited count by at least one. -/
theorem stepIter_inr_cnt (s e : EmbeddedNode) (adj : AdjMap) (nm : NodeMap)
    (wf : ∀ p ∈ nm, p.2.id = p.1) (st st' : BidiState)
    (h : stepIter s e adj nm st = Sum.inr st') (hc : BidiCnt nm st) :
    BidiCnt nm st' ∧
      st.forwardVisited.length + st.backwardVisited.length + 1 ≤
        st'.forwardVisited.length + st'.backwardVisited.length := by
  unfold stepIter at h
  split at h
  · exact absurd h (by simp)
  · rename_i st1 fmv hfa
    split at h
    · exact absurd h (by simp)
    · rename_i st2 bmv hba
      split at h
      · rename_i hmv
        rw [Sum.inr.injEq] at h
        subst h
        rcases forwardAttempt_inr s e adj nm _ _ fmv hfa with
          ⟨hf0, rfl, _⟩ | ⟨hf1, m, hm1, hm2, _, ⟨ids, hfind, hmm⟩, rfl⟩
        · rcases backwardAttempt_inr s e adj nm _ _ bmv hba with
            ⟨hb0, rfl, _⟩ | ⟨hb1, m, hm1, hm2, _, ⟨ids, hfind, hmm⟩, rfl⟩
          · rw [hf0, hb0] at hmv
            simp at hmv
          · refine ⟨bidiCnt_backwardMove hc m hm1 hm2
              (mem_filterMap_nmLookup_keys nm ids m wf hmm), ?_⟩
            simp only [List.length_append, List.length_singleton]
            omega
        · have hc1 := bidiCnt_forwardMove hc m hm1 hm2
            (mem_filterMap_nmLookup_keys nm ids m wf hmm)
          rcases backwardAttempt_inr s e adj nm _ _ bmv hba with
            ⟨hb0, rfl, _⟩ | ⟨hb1, m2, hm1', hm2', _, ⟨ids2, hfind2, hmm2⟩, rfl⟩
          · refine ⟨hc1, ?_⟩
            simp only [List.length_append, List.length_singleton]
            omega
          · refine ⟨bidiCnt_backwardMove hc1 m2 hm1' hm2'
              (mem_filterMap_nmLookup_keys nm ids2 m2 wf hmm2), ?_⟩
            simp only [List.length_append, List.length_singleton]
            omega
      · exact absurd h (by simp)

/-- With enough fuel relative to the unvisited node count, the fuelled
loop does not exhaust its budget. -/
theorem bidiLoop_total (s e : EmbeddedNode) (adj : AdjMap) (nm : NodeMap)
    (wf : ∀ p ∈ nm, p.2.id = p.1) :
    ∀ (fuel : ℕ) (st : BidiState), BidiCnt nm st →
      (nmKeys nm).length + 1 ≤
        fuel + st.forwardVisited.length + st.backwardVisited.length →
      bidiLoop s e adj nm fuel st ≠ none := by
  intro fuel
  induction fuel with
  | zero =>
    intro st hc hlen _
    have h1 : (st.forwardVisited ++ st.backwardVisited).toFinset.card =
        (st.forwardVisited ++ st.backwardVisited).length :=
      List.toFinset_card_of_nodup hc.nodup
    have h2 : (st.forwardVisited ++ st.backwardVisited).toFinset ⊆
        (nmKeys nm).toFinset := by
      intro x hx
      rw [List.mem_toFinset] at hx ⊢
      exact hc.keys x hx
    have h3 : (st.forwardVisited ++ st.backwardVisited).length ≤
        (nmKeys nm).length := by
      rw [← h1]
      exact le_trans (Finset.card_le_card h2) (List.toFinset_card_le _)
    rw [List.length_append] at h3
    omega
  | succ n ih =>
    intro st hc hlen hnone
    unfold bidiLoop at hnone
    split at hnone
    · exact absurd hnone (by simp)
    · rename_i st' hstep
      obtain ⟨hc', hgrow⟩ := stepIter_inr_cnt s e adj nm wf st st' hstep hc
      exact ih st' hc' (by omega) hnone

/-- C9: for every query whose node index is well-formed (each entry's node
carries its key as id) and whose endpoints are index keys, the
bidirectional routing loop terminates within its budget of N iterations,
where N is the number of indexed nodes: each continuing iteration visits
at least one previously unvisited node, so the routine always returns a
result. -/
theorem bidirectionalGreedyRouting_total (s e : EmbeddedNode)
    (adj : AdjMap) (nm : NodeMap) (wf : ∀ p ∈ nm, p.2.id = p.1)
    (hs : s.id ∈ nmKeys nm) (he : e.id ∈ nmKeys nm) :
    bidirectionalGreedyRouting s e adj nm ≠ none := by
  unfold bidirectionalGreedyRouting
  split
  · simp
  · rename_i hne
    apply bidiLoop_total s e adj nm wf _ _ (bidiCnt_init s e nm hne hs he)
    simp [initState]

/-- Witness for C9 on the concrete triangle query. -/
theorem bidirectionalGreedyRouting_total_witness :
    bidirectionalGreedyRouting rNodeA rNodeD rAdjCE rNodeMapCE ≠ none :=
  bidirectionalGreedyRouting_total rNodeA rNodeD rAdjCE rNodeMapCE
    (by decide) (by decide) (by decide)
